import Mathlib

/-!
Verification development for the stadium hazard-aware routing and
responder-dispatch engine (services/Routing-Service: `astar.py`,
`nearest_responder.py`).

Modelling conventions:
* Python floats are idealized as exact real numbers (`ℝ`); the heuristic's
  `math.sqrt` becomes `Real.sqrt`, which forces the development to be
  noncomputable — concrete runs are evaluated in proofs by `simp`/`norm_num`.
* Python dictionaries are association lists (first binding wins, updates
  replace in place, preserving insertion order, exactly like `dict`).
* Python sets of strings are lists; `min(open_set, ...)` picks the first
  element attaining the minimal key, which fixes one of the iteration
  orders permitted by the source (the spec documents tie-breaking as
  unspecified).
* `float('inf')` sentinels are folded into `Option`: a search result of
  `some none` is the source's `(None, float('inf'))`, and `some (some (p, c))`
  is a found path with its finite cost.
* The source's unbounded `while` loops take an explicit fuel argument; a
  result of `none` means the model ran out of fuel (the corresponding
  Python run would still be looping).  All theorems about results are
  stated for runs that complete, and witnesses exhibit completing runs.
-/

noncomputable section

open Classical

/-- Association-list lookup, modelling Python `dict.get` / `d[k]`. -/
def alook {κ α : Type} [DecidableEq κ] (k : κ) : List (κ × α) → Option α
  | [] => none
  | (k', v) :: t => if k' = k then some v else alook k t

/-- Association-list update, modelling Python `d[k] = v` (replaces in place,
appends fresh keys at the end, as insertion-ordered dicts do). -/
def updA {κ α : Type} [DecidableEq κ] (k : κ) (v : α) : List (κ × α) → List (κ × α)
  | [] => [(k, v)]
  | (k', v') :: t => if k' = k then (k, v) :: t else (k', v') :: updA k v t

/-- Hazard types with associated base penalties (`astar.py`, `HazardType`). -/
inductive HazardType
  | smoke
  | crowd
  | fire
  | spill
  | structural
deriving DecidableEq

/-- Base penalty constants attached to the `HazardType` enum values. -/
def HazardType.value : HazardType → ℝ
  | .smoke => 5
  | .crowd => 3
  | .fire => 10
  | .spill => 2
  | .structural => 8

/-- Graph node (`astar.py`, `Node`). -/
structure Node where
  id : String
  x : ℝ
  y : ℝ
  level : ℤ
  type : String

/-- Mutable hazard overlay (`astar.py`, `HazardMap`): closures plus per-node
and per-edge hazard severities.  Sets/dicts are modelled as lists whose
membership/lookup semantics agree with the Python originals. -/
structure HazardMap where
  closures : List (String × String)
  node_hazards : List (String × List (HazardType × ℝ))
  edge_hazards : List ((String × String) × List (HazardType × ℝ))

/-- The freshly constructed `HazardMap()` (empty `__init__` state). -/
def HazardMap.init : HazardMap := ⟨[], [], []⟩

/-- `HazardMap.add_closure`: close a corridor, both directions. -/
def HazardMap.add_closure (hz : HazardMap) (from_node to_node : String) : HazardMap :=
  { hz with closures := (from_node, to_node) :: (to_node, from_node) :: hz.closures }

/-- `HazardMap.remove_closure`: reopen a corridor (set `discard`, both
directions; removing every copy matches set membership semantics). -/
def HazardMap.remove_closure (hz : HazardMap) (from_node to_node : String) : HazardMap :=
  let cs := hz.closures.filter (fun e => ¬(e = (from_node, to_node) ∨ e = (to_node, from_node)))
  { hz with closures := cs }

/-- `HazardMap.is_closed`. -/
def HazardMap.is_closed (hz : HazardMap) (from_node to_node : String) : Prop :=
  (from_node, to_node) ∈ hz.closures

/-- `HazardMap.set_node_hazard`: store the given severity for the hazard type
on the node (no clamping in the source). -/
def HazardMap.set_node_hazard (hz : HazardMap) (node_id : String) (t : HazardType)
    (severity : ℝ) : HazardMap :=
  let nh := updA node_id (updA t severity ((alook node_id hz.node_hazards).getD [])) hz.node_hazards
  { hz with node_hazards := nh }

/-- `HazardMap.set_edge_hazard`: store the severity on both directions. -/
def HazardMap.set_edge_hazard (hz : HazardMap) (from_node to_node : String) (t : HazardType)
    (severity : ℝ) : HazardMap :=
  let eh1 := updA (from_node, to_node)
    (updA t severity ((alook (from_node, to_node) hz.edge_hazards).getD [])) hz.edge_hazards
  let eh2 := updA (to_node, from_node)
    (updA t severity ((alook (to_node, from_node) eh1).getD [])) eh1
  { hz with edge_hazards := eh2 }

/-- `HazardMap.set_crowd_penalty`: derive a crowd severity from an occupancy
rate by the three-segment ramp and store it (clamped above by `min 1.0`). -/
def HazardMap.set_crowd_penalty (hz : HazardMap) (node_id : String)
    (occupancy_rate : ℝ) : HazardMap :=
  let severity : ℝ :=
    if occupancy_rate < 50 then 0
    else if occupancy_rate < 80 then (occupancy_rate - 50) / 30 * 0.5
    else 0.5 + (occupancy_rate - 80) / 20 * 0.5
  hz.set_node_hazard node_id HazardType.crowd (min 1 severity)

/-- Sum of `hazard_type.value * severity` over an inner hazard dict. -/
def penSum : List (HazardType × ℝ) → ℝ
  | [] => 0
  | (t, s) :: rest => t.value * s + penSum rest

/-- `HazardMap.get_node_penalty`. -/
def HazardMap.get_node_penalty (hz : HazardMap) (node_id : String) : ℝ :=
  match alook node_id hz.node_hazards with
  | none => 0
  | some m => penSum m

/-- `HazardMap.get_edge_penalty`. -/
def HazardMap.get_edge_penalty (hz : HazardMap) (from_node to_node : String) : ℝ :=
  match alook (from_node, to_node) hz.edge_hazards with
  | none => 0
  | some m => penSum m

/-- `HazardType.FIRE in hazard_map.node_hazards.get(neighbor, {})`. -/
def HazardMap.has_fire (hz : HazardMap) (n : String) : Bool :=
  (alook HazardType.fire ((alook n hz.node_hazards).getD [])).isSome

/-- Stadium graph (`astar.py`, `Graph`): node dict and adjacency dict, as
built by `__init__` from the node/edge records. -/
structure Graph where
  nodes : List (String × Node)
  adjacency : List (String × List (String × ℝ))

/-- `Graph.get_neighbors` (missing key gives `[]`). -/
def Graph.get_neighbors (g : Graph) (node_id : String) : List (String × ℝ) :=
  (alook node_id g.adjacency).getD []

/-- `Graph.get_node`. -/
def Graph.get_node (g : Graph) (node_id : String) : Option Node :=
  alook node_id g.nodes

/-- `Graph.heuristic`: Euclidean distance plus `5.0` per level of difference;
`0.0` when either node is missing. -/
def Graph.heuristic (g : Graph) (node1_id node2_id : String) : ℝ :=
  match g.get_node node1_id, g.get_node node2_id with
  | some n1, some n2 =>
      Real.sqrt ((n1.x - n2.x) * (n1.x - n2.x) + (n1.y - n2.y) * (n1.y - n2.y))
        + ((|n1.level - n2.level| : ℤ) : ℝ) * 5
  | _, _ => 0

/-- The edge-cost computation from the neighbor-expansion body of
`hazard_aware_astar` (lines 261–277): base weight, plus edge penalty, plus
the node penalty of the destination when crowds are avoided or the
destination carries a fire hazard. -/
def edge_cost (hz : HazardMap) (avoid_crowds : Bool) (current neighbor : String)
    (base_weight : ℝ) : ℝ :=
  base_weight + hz.get_edge_penalty current neighbor +
    (if avoid_crowds || hz.has_fire neighbor then hz.get_node_penalty neighbor else 0)

/-- The A* search state: `open_set`, `came_from`, `g_score`, `f_score`. -/
structure AState where
  openList : List String
  cameFrom : List (String × String)
  gScore : List (String × ℝ)
  fScore : List (String × ℝ)

/-- Strict comparison on optional reals where `none` stands for
`float('inf')` (a missing `g_score`/`f_score` entry). -/
def oLt : Option ℝ → Option ℝ → Prop
  | some x, some y => x < y
  | some _, none => True
  | none, _ => False

/-- Auxiliary fold for `min(open_set, key=...)`: keeps the earliest element
attaining the minimal `f_score`. -/
def pickMinAux (f : List (String × ℝ)) : List String → String → String
  | [], best => best
  | n :: rest, best =>
      pickMinAux f rest (if oLt (alook n f) (alook best f) then n else best)

/-- `min(open_set, key=lambda n: f_score.get(n, float('inf')))`; `none` when
the open set is empty (the loop exits). -/
def pickMin (f : List (String × ℝ)) : List String → Option String
  | [] => none
  | n :: rest => some (pickMinAux f rest n)

/-- The successful-relaxation update: set `came_from`, `g_score` (to the
tentative score `gc + edge_cost`), `f_score`, and insert the neighbor into
the open set if absent. -/
def relaxUpd (g : Graph) (hz : HazardMap) (avoid_crowds : Bool) (goal current v : String)
    (w gc : ℝ) (st : AState) : AState :=
  { openList := if v ∈ st.openList then st.openList else st.openList ++ [v]
    cameFrom := updA v current st.cameFrom
    gScore := updA v (gc + edge_cost hz avoid_crowds current v w) st.gScore
    fScore := updA v (gc + edge_cost hz avoid_crowds current v w + g.heuristic v goal)
      st.fScore }

/-- One neighbor-relaxation step of `hazard_aware_astar`: skip closed edges,
compute the penalized tentative score, and apply `relaxUpd` when it strictly
improves (`neighbor not in g_score or tentative_g < g_score[neighbor]`).
A missing `g_score[current]` cannot occur on reachable states (the source
would raise `KeyError`); the model leaves the state unchanged there. -/
def relaxStep (g : Graph) (hz : HazardMap) (avoid_crowds : Bool) (goal current : String)
    (st : AState) (vw : String × ℝ) : AState :=
  if hz.is_closed current vw.1 then st
  else
    match alook current st.gScore with
    | none => st
    | some gc =>
      if oLt (some (gc + edge_cost hz avoid_crowds current vw.1 vw.2))
          (alook vw.1 st.gScore) then
        relaxUpd g hz avoid_crowds goal current vw.1 vw.2 gc st
      else st

/-- The `for neighbor, base_weight in graph.get_neighbors(current)` loop. -/
def relaxAll (g : Graph) (hz : HazardMap) (avoid_crowds : Bool) (goal current : String) :
    List (String × ℝ) → AState → AState
  | [], st => st
  | vw :: rest, st =>
      relaxAll g hz avoid_crowds goal current rest
        (relaxStep g hz avoid_crowds goal current st vw)

/-- The body of `_reconstruct_path`: follow `came_from` links, accumulating
the path (the accumulator is already in start-to-goal order, matching the
source's append-then-reverse).  Runs on fuel; `none` models the
nonterminating run a cyclic `came_from` would produce. -/
def reconstructGo (cf : List (String × String)) : ℕ → String → List String → Option (List String)
  | 0, _, _ => none
  | fuel + 1, current, acc =>
    match alook current cf with
    | some prev => reconstructGo cf fuel prev (prev :: acc)
    | none => some acc

/-- `_reconstruct_path` (fuel `|came_from| + 1` suffices for every acyclic
parent map, which is the only way the source loop terminates). -/
def reconstruct_path (cf : List (String × String)) (current : String) : Option (List String) :=
  reconstructGo cf (cf.length + 1) current [current]

/-- The `while open_set:` loop of `hazard_aware_astar`. -/
def astarLoop (g : Graph) (hz : HazardMap) (goal : String) (avoid_crowds : Bool) :
    ℕ → AState → Option (Option (List String × ℝ))
  | 0, _ => none
  | fuel + 1, st =>
    match pickMin st.fScore st.openList with
    | none => some none
    | some current =>
      if current = goal then
        match alook goal st.gScore, reconstruct_path st.cameFrom current with
        | some gv, some p => some (some (p, gv))
        | _, _ => none
      else
        astarLoop g hz goal avoid_crowds fuel
          (relaxAll g hz avoid_crowds goal current (g.get_neighbors current)
            { st with openList := st.openList.erase current })

/-- `hazard_aware_astar(graph, start, goal, hazard_map, avoid_crowds)`.
`some none` is the source's `(None, float('inf'))`; `some (some (p, c))` a
found path with cost; `none` an out-of-fuel model run. -/
def hazard_aware_astar (g : Graph) (start goal : String) (hz : HazardMap)
    (avoid_crowds : Bool) (fuel : ℕ) : Option (Option (List String × ℝ)) :=
  if (g.get_node start).isNone ∨ (g.get_node goal).isNone then some none
  else
    astarLoop g hz goal avoid_crowds fuel
      { openList := [start], cameFrom := [], gScore := [(start, 0)],
        fScore := [(start, g.heuristic start goal)] }

/-- The inner `for dest in remaining` scan of `multi_destination_route`:
find the nearest unvisited destination from the current position, keeping
the first strict improvement (`if path and dist < best_dist`).  The outer
`none` again signals an out-of-fuel inner A* run. -/
def mdrPick (g : Graph) (hz : HazardMap) (current : String) (fuel : ℕ) :
    List String → Option (String × List String × ℝ) →
    Option (Option (String × List String × ℝ))
  | [], best => some best
  | d :: rest, best =>
    match hazard_aware_astar g current d hz false fuel with
    | none => none
    | some none => mdrPick g hz current fuel rest best
    | some (some (p, dist)) =>
      if p ≠ [] ∧ (match best with | none => True | some b => dist < b.2.2) then
        mdrPick g hz current fuel rest (some (d, p, dist))
      else
        mdrPick g hz current fuel rest best

/-- The `while remaining:` loop of `multi_destination_route`, on fuel
(every iteration removes the chosen destination, so `|remaining| + 1`
suffices). -/
def mdrLoop (g : Graph) (hz : HazardMap) (fuel : ℕ) :
    ℕ → String → List String → List String → ℝ →
    Option (Option (List String × ℝ))
  | 0, _, _, _, _ => none
  | ofuel + 1, current, remaining, full_path, total =>
    match remaining with
    | [] => some (some (full_path, total))
    | _ :: _ =>
      match mdrPick g hz current fuel remaining none with
      | none => none
      | some none => some none
      | some (some (best_dest, best_path, best_dist)) =>
        mdrLoop g hz fuel ofuel best_dest (remaining.erase best_dest)
          (full_path ++ best_path.drop 1) (total + best_dist)

/-- `multi_destination_route(graph, start, destinations, hazard_map)`:
greedy nearest-neighbor tour.  `remaining = set(destinations)` is modelled
by deduplication; iteration order over the set is fixed as list order. -/
def multi_destination_route (g : Graph) (start : String) (destinations : List String)
    (hz : HazardMap) (fuel : ℕ) : Option (Option (List String × ℝ)) :=
  match destinations with
  | [] => some (some ([start], 0))
  | _ :: _ =>
    mdrLoop g hz fuel (destinations.dedup.length + 1) start destinations.dedup [start] 0

/-- Python `int()` truncation toward zero. -/
def pyInt (x : ℝ) : ℤ := if 0 ≤ x then ⌊x⌋ else ⌈x⌉

/-- Python `str.lower()`, character-wise ASCII lowering. -/
def pyLower (s : String) : String := ⟨s.data.map Char.toLower⟩

/-- `calculate_eta(distance, speed)`. -/
def calculate_eta (distance : ℝ) (speed : ℝ) : ℤ := pyInt (distance / speed)

/-- `calculate_eta_with_role(distance, role)`: per-role walking speed with
default `1.5`. -/
def calculate_eta_with_role (distance : ℝ) (role : String) : ℤ :=
  let speed : ℝ :=
    if pyLower role = "security" then 2.0
    else if pyLower role = "cleaning" then 1.2
    else if pyLower role = "supervisor" then 1.5
    else if pyLower role = "medical" then 1.8
    else 1.5
  calculate_eta distance speed

/-- Staff roles (`nearest_responder.py`, `StaffRole`). -/
inductive StaffRole
  | security
  | cleaning
  | supervisor
  | medical
deriving DecidableEq

/-- The string value of a `StaffRole` enum member. -/
def StaffRole.value : StaffRole → String
  | .security => "security"
  | .cleaning => "cleaning"
  | .supervisor => "supervisor"
  | .medical => "medical"

/-- Staff availability status (`nearest_responder.py`, `StaffStatus`). -/
inductive StaffStatus
  | available
  | busy
  | off_duty
  | responding
deriving DecidableEq

/-- `StaffMember`. -/
structure StaffMember where
  id : String
  role : StaffRole
  current_position : String
  status : StaffStatus
  name : Option String := none

/-- `StaffMember.is_available`. -/
def StaffMember.is_available (s : StaffMember) : Bool :=
  s.status = StaffStatus.available

/-- `EmergencyIncident`. -/
structure EmergencyIncident where
  id : String
  location : String
  type : String
  priority : String
  required_role : StaffRole
  timestamp : String

/-- `ResponderAssignment`. -/
structure ResponderAssignment where
  staff_id : String
  staff_role : StaffRole
  current_position : String
  incident_location : String
  path : List String
  distance : ℝ
  eta_seconds : ℤ
  priority : String

/-- `StaffTracker` (id-keyed dict of staff members). -/
structure StaffTracker where
  staff : List (String × StaffMember)

/-- `StaffTracker.get_available_by_role`: values in insertion order,
filtered on role and availability. -/
def StaffTracker.get_available_by_role (t : StaffTracker) (role : StaffRole) :
    List StaffMember :=
  (t.staff.map Prod.snd).filter (fun s => s.role = role ∧ s.is_available)

/-- `priority_weights.get(incident.priority.lower(), 1.0)`. -/
def priorityWeight (priority : String) : ℝ :=
  if pyLower priority = "critical" then 0.5
  else if pyLower priority = "high" then 0.75
  else if pyLower priority = "medium" then 1.0
  else if pyLower priority = "low" then 1.5
  else 1.0

/-- The candidate-evaluation loop of `find_nearest_responder`, threading the
`best_assignment`/`best_weighted_eta` pair (`none` weighted ETA is the
initial `float('inf')`).  Outer `none` propagates an out-of-fuel A* run. -/
def fnrLoop (g : Graph) (hz : HazardMap) (incident : EmergencyIncident) (weight : ℝ)
    (fuel : ℕ) : List StaffMember → Option ResponderAssignment → Option ℝ →
    Option (Option ResponderAssignment × Option ℝ)
  | [], best, bw => some (best, bw)
  | s :: rest, best, bw =>
    match hazard_aware_astar g s.current_position incident.location hz true fuel with
    | none => none
    | some none => fnrLoop g hz incident weight fuel rest best bw
    | some (some (p, dist)) =>
      if p = [] then fnrLoop g hz incident weight fuel rest best bw
      else
        let eta := calculate_eta_with_role dist s.role.value
        let weta := (eta : ℝ) * weight
        if oLt (some weta) bw then
          fnrLoop g hz incident weight fuel rest
            (some { staff_id := s.id, staff_role := s.role,
                    current_position := s.current_position,
                    incident_location := incident.location,
                    path := p, distance := dist, eta_seconds := eta,
                    priority := incident.priority })
            (some weta)
        else fnrLoop g hz incident weight fuel rest best bw

/-- `find_nearest_responder(graph, incident, staff_tracker, hazard_map)`. -/
def find_nearest_responder (g : Graph) (incident : EmergencyIncident)
    (tracker : StaffTracker) (hz : HazardMap) (fuel : ℕ) :
    Option (Option ResponderAssignment) :=
  let available := tracker.get_available_by_role incident.required_role
  match available with
  | [] => some none
  | _ :: _ =>
    (fnrLoop g hz incident (priorityWeight incident.priority) fuel available none none).map
      Prod.fst

/-- The assignment-collection loop of `find_multiple_responders`. -/
def fmrBuild (g : Graph) (hz : HazardMap) (incident : EmergencyIncident) (fuel : ℕ) :
    List StaffMember → Option (List ResponderAssignment)
  | [] => some []
  | s :: rest =>
    match hazard_aware_astar g s.current_position incident.location hz true fuel with
    | none => none
    | some none => fmrBuild g hz incident fuel rest
    | some (some (p, dist)) =>
      if p = [] then fmrBuild g hz incident fuel rest
      else
        (fmrBuild g hz incident fuel rest).map
          (fun l =>
            { staff_id := s.id, staff_role := s.role,
              current_position := s.current_position,
              incident_location := incident.location,
              path := p, distance := dist,
              eta_seconds := calculate_eta_with_role dist s.role.value,
              priority := incident.priority } :: l)

/-- The key order `assignments.sort(key=lambda a: a.eta_seconds)` sorts by. -/
def etaLe (a b : ResponderAssignment) : Prop :=
  a.eta_seconds ≤ b.eta_seconds

instance : DecidableRel etaLe := fun a b => Int.decLe a.eta_seconds b.eta_seconds

instance : IsTotal ResponderAssignment etaLe :=
  ⟨fun a b => Int.le_total a.eta_seconds b.eta_seconds⟩

instance : IsTrans ResponderAssignment etaLe :=
  ⟨fun _ _ _ h1 h2 => le_trans h1 h2⟩

/-- Stable ascending sort on `eta_seconds`
(`assignments.sort(key=lambda a: a.eta_seconds)`; insertion sort places an
earlier element before later elements with an equal key, matching Python's
stable sort). -/
def sortByEta (l : List ResponderAssignment) : List ResponderAssignment :=
  l.insertionSort etaLe

/-- `find_multiple_responders(graph, incident, staff_tracker, hazard_map,
num_responders)`. -/
def find_multiple_responders (g : Graph) (incident : EmergencyIncident)
    (tracker : StaffTracker) (hz : HazardMap) (num_responders : ℕ) (fuel : ℕ) :
    Option (List ResponderAssignment) :=
  let available := tracker.get_available_by_role incident.required_role
  match available with
  | [] => some []
  | _ :: _ =>
    (fmrBuild g hz incident fuel available).map
      (fun assignments => (sortByEta assignments).take num_responders)

/-! ## Walks, costs, and reachability -/

/-- A single usable transition: a graph edge that is not closed. -/
def openStep (g : Graph) (hz : HazardMap) (u v : String) : Prop :=
  (∃ w, (v, w) ∈ g.get_neighbors u) ∧ ¬hz.is_closed u v

/-- A walk along non-closed graph edges, weighted by base edge weights only.
This is the cost model of plain Dijkstra over non-closed edges. -/
inductive BWalk (g : Graph) (hz : HazardMap) : String → String → ℝ → Prop
  | refl (s : String) : BWalk g hz s s 0
  | cons {u v t : String} {w c : ℝ} :
      (v, w) ∈ g.get_neighbors u → ¬hz.is_closed u v →
      BWalk g hz v t c → BWalk g hz u t (w + c)

/-- A walk along non-closed graph edges weighted by the penalized
`edge_cost` the A* search actually accumulates. -/
inductive CWalk (g : Graph) (hz : HazardMap) (ac : Bool) : String → String → ℝ → Prop
  | refl (s : String) : CWalk g hz ac s s 0
  | cons {u v t : String} {w c : ℝ} :
      (v, w) ∈ g.get_neighbors u → ¬hz.is_closed u v →
      CWalk g hz ac v t c → CWalk g hz ac u t (edge_cost hz ac u v w + c)

/-- A concrete node list realizing a penalized walk of the given cost. -/
inductive CWalkL (g : Graph) (hz : HazardMap) (ac : Bool) : List String → ℝ → Prop
  | single (s : String) : CWalkL g hz ac [s] 0
  | cons {u v : String} {w c : ℝ} {rest : List String} :
      (v, w) ∈ g.get_neighbors u → ¬hz.is_closed u v →
      CWalkL g hz ac (v :: rest) c → CWalkL g hz ac (u :: v :: rest) (edge_cost hz ac u v w + c)

/-- Some route from `s` to `t` exists along non-closed graph edges. -/
def Reachable (g : Graph) (hz : HazardMap) (s t : String) : Prop :=
  ∃ c, BWalk g hz s t c

/-- The true shortest-path cost from `s` to `t` over base weights restricted
to non-closed edges — the quantity brute-force Dijkstra computes. -/
def IsShortestCost (g : Graph) (hz : HazardMap) (s t : String) (c : ℝ) : Prop :=
  BWalk g hz s t c ∧ ∀ c', BWalk g hz s t c' → c ≤ c'

/-! ## Association-list lemmas -/

theorem alook_updA_self {κ α : Type} [DecidableEq κ] (k : κ) (v : α) (l : List (κ × α)) :
    alook k (updA k v l) = some v := by
  induction l with
  | nil => simp [updA, alook]
  | cons h t ih =>
    obtain ⟨k', v'⟩ := h
    by_cases hk : k' = k
    · subst hk; simp [updA, alook]
    · simp [updA, alook, hk, ih]

theorem alook_updA_ne {κ α : Type} [DecidableEq κ] {k k' : κ} (h : k ≠ k') (v : α)
    (l : List (κ × α)) : alook k' (updA k v l) = alook k' l := by
  induction l with
  | nil => simp [updA, alook, h]
  | cons hd t ih =>
    obtain ⟨k1, v1⟩ := hd
    by_cases hk : k1 = k
    · subst hk
      simp [updA, alook, h]
    · simp [updA, alook, hk, ih]

theorem alook_updA_cases {κ α : Type} [DecidableEq κ] (k k' : κ) (v : α)
    (l : List (κ × α)) :
    alook k' (updA k v l) = if k = k' then some v else alook k' l := by
  by_cases h : k = k'
  · subst h; simp [alook_updA_self]
  · simp [h, alook_updA_ne h]

/-! ## oLt and pickMin lemmas -/

/-- Non-strict counterpart of `oLt` (with `none` as `+∞`). -/
def oLe : Option ℝ → Option ℝ → Prop
  | _, none => True
  | none, some _ => False
  | some x, some y => x ≤ y

theorem not_oLt_iff_oLe (a b : Option ℝ) : ¬oLt a b ↔ oLe b a := by
  cases a <;> cases b <;> simp [oLt, oLe, not_lt]

theorem oLe_refl (a : Option ℝ) : oLe a a := by
  cases a <;> simp [oLe]

theorem oLe_of_oLt {a b : Option ℝ} (h : oLt a b) : oLe a b := by
  cases a <;> cases b <;> simp_all [oLt, oLe]
  linarith

theorem oLe_trans {a b c : Option ℝ} (h1 : oLe a b) (h2 : oLe b c) : oLe a c := by
  cases a <;> cases b <;> cases c <;> simp_all [oLe]
  linarith

theorem pickMinAux_mem (f : List (String × ℝ)) (l : List String) (b : String) :
    pickMinAux f l b = b ∨ pickMinAux f l b ∈ l := by
  induction l generalizing b with
  | nil => simp [pickMinAux]
  | cons n rest ih =>
    simp only [pickMinAux]
    by_cases h : oLt (alook n f) (alook b f)
    · rw [if_pos h]
      rcases ih n with h1 | h1
      · right; rw [h1]; exact List.mem_cons_self n rest
      · right; exact List.mem_cons_of_mem n h1
    · rw [if_neg h]
      rcases ih b with h1 | h1
      · left; exact h1
      · right; exact List.mem_cons_of_mem n h1

theorem pickMinAux_min (f : List (String × ℝ)) (l : List String) (b : String) :
    oLe (alook (pickMinAux f l b) f) (alook b f) ∧
      ∀ n ∈ l, oLe (alook (pickMinAux f l b) f) (alook n f) := by
  induction l generalizing b with
  | nil => exact ⟨oLe_refl _, by simp⟩
  | cons n rest ih =>
    simp only [pickMinAux]
    by_cases h : oLt (alook n f) (alook b f)
    · rw [if_pos h]
      obtain ⟨h1, h2⟩ := ih n
      refine ⟨oLe_trans h1 (oLe_of_oLt h), ?_⟩
      intro m hm
      rcases List.mem_cons.mp hm with hm | hm
      · subst hm; exact h1
      · exact h2 m hm
    · rw [if_neg h]
      obtain ⟨h1, h2⟩ := ih b
      refine ⟨h1, ?_⟩
      intro m hm
      rcases List.mem_cons.mp hm with hm | hm
      · subst hm
        exact oLe_trans h1 ((not_oLt_iff_oLe _ _).mp h)
      · exact h2 m hm

theorem pickMin_none_iff (f : List (String × ℝ)) (l : List String) :
    pickMin f l = none ↔ l = [] := by
  cases l <;> simp [pickMin]

theorem pickMin_mem {f : List (String × ℝ)} {l : List String} {m : String}
    (h : pickMin f l = some m) : m ∈ l := by
  cases l with
  | nil => simp [pickMin] at h
  | cons n rest =>
    simp only [pickMin, Option.some.injEq] at h
    rcases pickMinAux_mem f rest n with h1 | h1
    · rw [← h, h1]; exact List.mem_cons_self n rest
    · rw [← h]; exact List.mem_cons_of_mem n h1

theorem pickMin_min {f : List (String × ℝ)} {l : List String} {m : String}
    (h : pickMin f l = some m) : ∀ n ∈ l, oLe (alook m f) (alook n f) := by
  cases l with
  | nil => simp [pickMin] at h
  | cons n rest =>
    simp only [pickMin, Option.some.injEq] at h
    subst h
    obtain ⟨h1, h2⟩ := pickMinAux_min f rest n
    intro x hx
    rcases List.mem_cons.mp hx with hx | hx
    · subst hx; exact h1
    · exact h2 x hx

/-! ## Stored severities -/

/-- The severity stored in `node_hazards` for a node and hazard type. -/
def storedNodeSeverity (hz : HazardMap) (n : String) (t : HazardType) : Option ℝ :=
  alook t ((alook n hz.node_hazards).getD [])

/-- The severity stored in `edge_hazards` for a directed edge and hazard type. -/
def storedEdgeSeverity (hz : HazardMap) (a b : String) (t : HazardType) : Option ℝ :=
  alook t ((alook (a, b) hz.edge_hazards).getD [])

theorem storedNodeSeverity_set (hz : HazardMap) (n : String) (t : HazardType) (s : ℝ) :
    storedNodeSeverity (hz.set_node_hazard n t s) n t = some s := by
  simp [storedNodeSeverity, HazardMap.set_node_hazard, alook_updA_self]

/-- The three-segment crowd ramp, as computed inside `set_crowd_penalty`. -/
def crowdRamp (occupancy_rate : ℝ) : ℝ :=
  if occupancy_rate < 50 then 0
  else if occupancy_rate < 80 then (occupancy_rate - 50) / 30 * 0.5
  else 0.5 + (occupancy_rate - 80) / 20 * 0.5

theorem set_crowd_penalty_stored (hz : HazardMap) (n : String) (occ : ℝ) :
    storedNodeSeverity (hz.set_crowd_penalty n occ) n HazardType.crowd =
      some (min 1 (crowdRamp occ)) := by
  simp only [HazardMap.set_crowd_penalty, crowdRamp]
  exact storedNodeSeverity_set hz n HazardType.crowd _

theorem crowdRamp_nonneg (occ : ℝ) : 0 ≤ crowdRamp occ := by
  unfold crowdRamp
  split_ifs <;> push_neg at * <;> linarith

theorem crowdRamp_mono {o1 o2 : ℝ} (h : o1 ≤ o2) : crowdRamp o1 ≤ crowdRamp o2 := by
  unfold crowdRamp
  split_ifs <;> push_neg at * <;> linarith

/-- Claim C6: `setCrowdPenalty` maps occupancy to crowd severity by the
three-segment ramp: every occupancy in `[0, 50]` stores severity `0`,
occupancy `80` stores `0.5`, occupancy `100` stores `1.0`, the stored
severity is monotone in occupancy, and `setCrowdPenalty(n, 85.0)` stores
severity `0.625`, yielding node penalty `3 × 0.625 = 1.875`. -/
theorem claim_C6 (hz : HazardMap) (n : String) :
    (∀ occ : ℝ, 0 ≤ occ → occ ≤ 50 →
        storedNodeSeverity (hz.set_crowd_penalty n occ) n HazardType.crowd = some 0) ∧
    storedNodeSeverity (hz.set_crowd_penalty n 80) n HazardType.crowd = some 0.5 ∧
    storedNodeSeverity (hz.set_crowd_penalty n 100) n HazardType.crowd = some 1 ∧
    (∀ o1 o2 : ℝ, o1 ≤ o2 →
        (storedNodeSeverity (hz.set_crowd_penalty n o1) n HazardType.crowd).getD 0 ≤
          (storedNodeSeverity (hz.set_crowd_penalty n o2) n HazardType.crowd).getD 0) ∧
    storedNodeSeverity (hz.set_crowd_penalty n 85) n HazardType.crowd = some 0.625 ∧
    (alook n hz.node_hazards = none →
        (hz.set_crowd_penalty n 85).get_node_penalty n = 1.875) := by
  refine ⟨?_, ?_, ?_, ?_, ?_, ?_⟩
  · intro occ h0 h50
    rw [set_crowd_penalty_stored]
    have : crowdRamp occ = 0 := by
      unfold crowdRamp
      split_ifs with h1 h2
      · rfl
      · have : occ = 50 := le_antisymm h50 (not_lt.mp h1)
        rw [this]; norm_num
      · exfalso; push_neg at h2; linarith
    rw [this]
    norm_num
  · rw [set_crowd_penalty_stored]
    have : crowdRamp 80 = 0.5 := by unfold crowdRamp; norm_num
    rw [this]; norm_num
  · rw [set_crowd_penalty_stored]
    have : crowdRamp 100 = 1 := by unfold crowdRamp; norm_num
    rw [this]; norm_num
  · intro o1 o2 h
    rw [set_crowd_penalty_stored, set_crowd_penalty_stored]
    simp only [Option.getD_some]
    exact min_le_min le_rfl (crowdRamp_mono h)
  · rw [set_crowd_penalty_stored]
    have : crowdRamp 85 = 0.625 := by unfold crowdRamp; norm_num
    rw [this]; norm_num
  · intro hnone
    simp only [HazardMap.set_crowd_penalty, HazardMap.set_node_hazard,
      HazardMap.get_node_penalty, hnone, alook_updA_self]
    have : crowdRamp 85 = 0.625 := by unfold crowdRamp; norm_num
    simp only [crowdRamp] at this
    rw [this]
    simp [updA, penSum, HazardType.value]
    norm_num

/-- Claim C6 witness: concrete evaluations of the ramp at occupancies
`42`, `80`, `100`, the monotone pair `(30, 90)`, and the `85%` scenario on
the empty hazard map. -/
theorem claim_C6_witness :
    storedNodeSeverity (HazardMap.init.set_crowd_penalty "N6" 42) "N6" HazardType.crowd
        = some 0 ∧
    storedNodeSeverity (HazardMap.init.set_crowd_penalty "N6" 80) "N6" HazardType.crowd
        = some 0.5 ∧
    ((storedNodeSeverity (HazardMap.init.set_crowd_penalty "N6" 30) "N6"
        HazardType.crowd).getD 0 ≤
      (storedNodeSeverity (HazardMap.init.set_crowd_penalty "N6" 90) "N6"
        HazardType.crowd).getD 0) ∧
    (HazardMap.init.set_crowd_penalty "N6" 85).get_node_penalty "N6" = 1.875 :=
  ⟨(claim_C6 HazardMap.init "N6").1 42 (by norm_num) (by norm_num),
   (claim_C6 HazardMap.init "N6").2.1,
   (claim_C6 HazardMap.init "N6").2.2.2.1 30 90 (by norm_num),
   (claim_C6 HazardMap.init "N6").2.2.2.2.2 (by simp [HazardMap.init, alook])⟩

/-- Claim C7 counterexample: `set_node_hazard` performs no clamping — storing
severity `2` on a node leaves severity `2` (outside `[0, 1]`) in
`nodeHazards`. -/
theorem claim_C7_cex :
    storedNodeSeverity (HazardMap.init.set_node_hazard "N1" HazardType.smoke 2)
        "N1" HazardType.smoke = some 2 ∧ ¬((2 : ℝ) ≤ 1) :=
  ⟨storedNodeSeverity_set _ _ _ _, by norm_num⟩

/-- Claim C7 (amended): only `setCrowdPenalty` clamps — its derived crowd
severity always lands in `[0, 1]` — while `setNodeHazard` and
`setEdgeHazard` store their severity argument unchanged, whatever it is. -/
theorem claim_C7 :
    (∀ (hz : HazardMap) (n : String) (occ : ℝ), ∃ s : ℝ,
        storedNodeSeverity (hz.set_crowd_penalty n occ) n HazardType.crowd = some s ∧
          0 ≤ s ∧ s ≤ 1) ∧
    (∀ (hz : HazardMap) (n : String) (t : HazardType) (s : ℝ),
        storedNodeSeverity (hz.set_node_hazard n t s) n t = some s) ∧
    (∀ (hz : HazardMap) (a b : String) (t : HazardType) (s : ℝ),
        storedEdgeSeverity (hz.set_edge_hazard a b t s) a b t = some s ∧
          storedEdgeSeverity (hz.set_edge_hazard a b t s) b a t = some s) := by
  refine ⟨?_, ?_, ?_⟩
  · intro hz n occ
    refine ⟨min 1 (crowdRamp occ), set_crowd_penalty_stored hz n occ, ?_, min_le_left _ _⟩
    exact le_min (by norm_num) (crowdRamp_nonneg occ)
  · intro hz n t s
    exact storedNodeSeverity_set hz n t s
  · intro hz a b t s
    constructor
    · by_cases hab : ((b, a) : String × String) = (a, b)
      · simp only [storedEdgeSeverity, HazardMap.set_edge_hazard, hab, alook_updA_self,
          Option.getD_some, alook_updA_self]
      · simp only [storedEdgeSeverity, HazardMap.set_edge_hazard,
          alook_updA_ne hab, alook_updA_self, Option.getD_some, alook_updA_self]
    · simp only [storedEdgeSeverity, HazardMap.set_edge_hazard, alook_updA_self,
        Option.getD_some, alook_updA_self]

/-! ## Claim C3: the fire override -/

/-- The node-penalty contribution a step into `v` picks up when
`avoid_crowds` is false: the full node penalty exactly when `v` carries an
active fire hazard. -/
def fireTag (hz : HazardMap) (v : String) : ℝ :=
  if hz.has_fire v then hz.get_node_penalty v else 0

/-- A node list realizing a walk whose cost counts base weights and edge
penalties but no node penalties. -/
inductive EWalkL (g : Graph) (hz : HazardMap) : List String → ℝ → Prop
  | single (s : String) : EWalkL g hz [s] 0
  | cons {u v : String} {w c : ℝ} {rest : List String} :
      (v, w) ∈ g.get_neighbors u → ¬hz.is_closed u v →
      EWalkL g hz (v :: rest) c →
      EWalkL g hz (u :: v :: rest) (w + hz.get_edge_penalty u v + c)

theorem CWalkL.cost_eqL {g : Graph} {hz : HazardMap} {ac : Bool} {p : List String}
    {c c' : ℝ} (h : CWalkL g hz ac p c) (he : c = c') : CWalkL g hz ac p c' :=
  he ▸ h

/-- Turning a base-plus-edge-penalty walk into its penalized cost with
`avoid_crowds = false`: each step additionally pays the fire tag of its
target node. -/
theorem EWalkL.toCWalkL {g : Graph} {hz : HazardMap} {p : List String} {cb : ℝ}
    (h : EWalkL g hz p cb) :
    CWalkL g hz false p (cb + ((p.drop 1).map (fireTag hz)).sum) := by
  induction h with
  | single s =>
    exact (CWalkL.single s).cost_eqL (by simp)
  | cons hmem hop hrest ih =>
    refine (CWalkL.cons hmem hop ih).cost_eqL ?_
    simp only [edge_cost, fireTag, List.drop_one, List.map_cons, List.sum_cons,
      Bool.false_or, List.tail_cons]
    ring

/-- Claim C3: with `avoidCrowds = false`, the node penalty of the neighbor
is added to the edge cost exactly when the neighbor carries an active fire
hazard, the full node penalty (the severity-weighted sum over its hazard
kinds) contributes, and a route through a fire node therefore costs
strictly more than a route with the same base-plus-edge-penalty cost that
touches no fire node. -/
theorem claim_C3 (g : Graph) (hz : HazardMap) :
    (∀ (u v : String) (w : ℝ), hz.has_fire v = true →
        edge_cost hz false u v w = w + hz.get_edge_penalty u v + hz.get_node_penalty v) ∧
    (∀ (u v : String) (w : ℝ), hz.has_fire v = false →
        edge_cost hz false u v w = w + hz.get_edge_penalty u v) ∧
    (∀ (p q : List String) (cb : ℝ),
        EWalkL g hz p cb → EWalkL g hz q cb →
        (∀ v ∈ q.drop 1, hz.has_fire v = false) →
        (∃ v ∈ p.drop 1, hz.has_fire v = true ∧ 0 < hz.get_node_penalty v) →
        (∀ v ∈ p.drop 1, 0 ≤ fireTag hz v) →
        CWalkL g hz false q cb ∧
          ∃ cp, CWalkL g hz false p cp ∧ cb < cp) := by
  refine ⟨?_, ?_, ?_⟩
  · intro u v w hfire
    simp [edge_cost, hfire]
  · intro u v w hfire
    simp [edge_cost, hfire]
  · intro p q cb hp hq hqnofire hpfire hpnn
    have hq' := hq.toCWalkL
    have hzero : ((q.drop 1).map (fireTag hz)).sum = 0 := by
      apply List.sum_eq_zero
      intro x hx
      simp only [List.mem_map] at hx
      obtain ⟨v, hv, hvx⟩ := hx
      rw [← hvx]
      simp [fireTag, hqnofire v hv]
    rw [hzero, add_zero] at hq'
    refine ⟨hq', cb + ((p.drop 1).map (fireTag hz)).sum, hp.toCWalkL, ?_⟩
    have hpos : 0 < ((p.drop 1).map (fireTag hz)).sum := by
      obtain ⟨v, hv, hfire, hpen⟩ := hpfire
      have hsplit : fireTag hz v ∈ (p.drop 1).map (fireTag hz) :=
        List.mem_map_of_mem (fireTag hz) hv
      have hvpos : 0 < fireTag hz v := by simp [fireTag, hfire]; exact hpen
      calc 0 < fireTag hz v := hvpos
        _ ≤ ((p.drop 1).map (fireTag hz)).sum := by
            apply List.single_le_sum
            · intro x hx
              simp only [List.mem_map] at hx
              obtain ⟨y, hy, hyx⟩ := hx
              rw [← hyx]
              exact hpnn y hy
            · exact hsplit
    linarith

theorem EWalkL.cost_eqE {g : Graph} {hz : HazardMap} {p : List String}
    {c c' : ℝ} (h : EWalkL g hz p c) (he : c = c') : EWalkL g hz p c' :=
  he ▸ h

/-- A three-node test world for the fire override: `P` steps either into the
burning node `F` or into the clean node `R`, over equal base weights. -/
def fireG : Graph := ⟨[], [("P", [("F", 10), ("R", 10)])]⟩

/-- Fire hazard of severity `1` on node `F`, nothing else. -/
def fireHz : HazardMap := HazardMap.init.set_node_hazard "F" HazardType.fire 1

theorem fireHz_has_fire : fireHz.has_fire "F" = true ∧ fireHz.has_fire "R" = false := by
  constructor <;>
    simp [fireHz, HazardMap.init, HazardMap.set_node_hazard, HazardMap.has_fire,
      updA, alook]

/-- Claim C3 witness: on the concrete fire world, stepping into the burning
node costs `10 + 0 + 10`, and the two-node route through it is strictly
costlier than the equal-base route through the clean node. -/
theorem claim_C3_witness :
    edge_cost fireHz false "P" "F" 10 =
        10 + fireHz.get_edge_penalty "P" "F" + fireHz.get_node_penalty "F" ∧
    (CWalkL fireG fireHz false ["P", "R"] 10 ∧
      ∃ cp, CWalkL fireG fireHz false ["P", "F"] cp ∧ 10 < cp) := by
  have hfF : fireHz.has_fire "F" = true := fireHz_has_fire.1
  have hfR : fireHz.has_fire "R" = false := fireHz_has_fire.2
  have hep : ∀ a b : String, fireHz.get_edge_penalty a b = 0 := by
    intro a b
    simp [fireHz, HazardMap.init, HazardMap.set_node_hazard, HazardMap.get_edge_penalty, alook]
  have hnpF : fireHz.get_node_penalty "F" = 10 := by
    simp [fireHz, HazardMap.init, HazardMap.set_node_hazard, HazardMap.get_node_penalty,
      updA, alook, penSum, HazardType.value]
  have hmemF : (("F", (10:ℝ)) ∈ fireG.get_neighbors "P") := by
    simp [fireG, Graph.get_neighbors, alook]
  have hmemR : (("R", (10:ℝ)) ∈ fireG.get_neighbors "P") := by
    simp [fireG, Graph.get_neighbors, alook]
  have hopenF : ¬fireHz.is_closed "P" "F" := by
    simp [fireHz, HazardMap.init, HazardMap.set_node_hazard, HazardMap.is_closed]
  have hopenR : ¬fireHz.is_closed "P" "R" := by
    simp [fireHz, HazardMap.init, HazardMap.set_node_hazard, HazardMap.is_closed]
  have hp : EWalkL fireG fireHz ["P", "F"] 10 :=
    (EWalkL.cons hmemF hopenF (EWalkL.single "F")).cost_eqE (by rw [hep]; ring)
  have hq : EWalkL fireG fireHz ["P", "R"] 10 :=
    (EWalkL.cons hmemR hopenR (EWalkL.single "R")).cost_eqE (by rw [hep]; ring)
  refine ⟨(claim_C3 fireG fireHz).1 "P" "F" 10 hfF, ?_⟩
  exact (claim_C3 fireG fireHz).2.2 ["P", "F"] ["P", "R"] 10 hp hq
    (by intro v hv; simp at hv; rw [hv]; exact hfR)
    (⟨"F", by simp, hfF, by rw [hnpF]; norm_num⟩)
    (by intro v hv; simp at hv; rw [hv]; simp [fireTag, hfF, hnpF])

/-! ## The A* loop invariant -/

/-- Edge `(u, v, w)` is relaxed in score map `sc` against source value `gu`. -/
def relaxedE (hz : HazardMap) (ac : Bool) (sc : List (String × ℝ)) (u : String) (gu : ℝ)
    (v : String) (w : ℝ) : Prop :=
  ∃ gv, alook v sc = some gv ∧ gv ≤ gu + edge_cost hz ac u v w

/-- Node `u` has all its usable out-edges relaxed whenever it is settled
(present in `g_score` but not in the open set). -/
def NRfor (g : Graph) (hz : HazardMap) (ac : Bool) (st : AState) (u : String) : Prop :=
  ∀ gu, alook u st.gScore = some gu → u ∉ st.openList →
    ∀ v w, (v, w) ∈ g.get_neighbors u → ¬hz.is_closed u v →
      relaxedE hz ac st.gScore u gu v w

/-- The structural part of the A* loop invariant (everything except the
neighbor-relaxation property). -/
structure AInvCore (g : Graph) (hz : HazardMap) (ac : Bool) (start goal : String)
    (st : AState) : Prop where
  openSub : ∀ n ∈ st.openList, (alook n st.gScore).isSome
  openND : st.openList.Nodup
  startDef : (alook start st.gScore).isSome
  gReal : ∀ n c, alook n st.gScore = some c → CWalk g hz ac start n c
  cfEdge : ∀ n u, alook n st.cameFrom = some u →
    ∃ w, (n, w) ∈ g.get_neighbors u ∧ ¬hz.is_closed u n ∧
      ∃ gu gn, alook u st.gScore = some gu ∧ alook n st.gScore = some gn ∧
        gu + edge_cost hz ac u n w ≤ gn
  gDom : ∀ n, (alook n st.gScore).isSome → n = start ∨ (alook n st.cameFrom).isSome
  fSync : ∀ n, alook n st.fScore = (alook n st.gScore).map (fun c => c + g.heuristic n goal)
  goalOpen : (alook goal st.gScore).isSome → goal ∈ st.openList
  startLe : ∃ gs, alook start st.gScore = some gs ∧ gs ≤ 0

/-- The full A* loop invariant. -/
structure AInv (g : Graph) (hz : HazardMap) (ac : Bool) (start goal : String)
    (st : AState) extends AInvCore g hz ac start goal st : Prop where
  NR : ∀ u, NRfor g hz ac st u

/-- The invariant holds at the initial state of `hazard_aware_astar`. -/
theorem AInv_init (g : Graph) (hz : HazardMap) (ac : Bool) (start goal : String) :
    AInv g hz ac start goal
      { openList := [start], cameFrom := [], gScore := [(start, 0)],
        fScore := [(start, g.heuristic start goal)] } := by
  refine ⟨⟨?_, ?_, ?_, ?_, ?_, ?_, ?_, ?_, ?_⟩, ?_⟩
  · intro n hn
    simp at hn
    subst hn
    simp [alook]
  · simp
  · simp [alook]
  · intro n c h
    simp only [alook] at h
    by_cases hs : start = n
    · subst hs
      simp at h
      rw [← h]
      exact CWalk.refl start
    · simp [hs] at h
  · intro n u h
    simp [alook] at h
  · intro n h
    simp only [alook] at h
    by_cases hs : start = n
    · subst hs; left; rfl
    · simp [hs] at h
  · intro n
    simp only [alook]
    by_cases hs : start = n
    · subst hs; simp
    · simp [hs]
  · intro h
    simp only [alook] at h
    by_cases hs : start = goal
    · rw [← hs]; simp
    · simp [hs] at h
  · exact ⟨0, by simp [alook], le_refl 0⟩
  · intro u gu hgu hopen v w _ _
    exfalso
    simp only [alook] at hgu
    by_cases hs : start = u
    · subst hs
      exact hopen (by simp)
    · simp [hs] at hgu

theorem CWalk.cost_eqW {g : Graph} {hz : HazardMap} {ac : Bool} {s t : String}
    {c c' : ℝ} (h : CWalk g hz ac s t c) (he : c = c') : CWalk g hz ac s t c' :=
  he ▸ h

theorem CWalk.snoc {g : Graph} {hz : HazardMap} {ac : Bool} {s u : String} {c : ℝ}
    (h : CWalk g hz ac s u c) :
    ∀ {v : String} {w : ℝ}, (v, w) ∈ g.get_neighbors u → ¬hz.is_closed u v →
      CWalk g hz ac s v (c + edge_cost hz ac u v w) := by
  induction h with
  | refl s =>
    intro v w hm hc
    exact (CWalk.cons hm hc (CWalk.refl v)).cost_eqW (by ring)
  | cons hm' hc' _ ih =>
    intro v w hm hc
    exact (CWalk.cons hm' hc' (ih hm hc)).cost_eqW (by ring)

theorem relaxUpd_open_iff (g : Graph) (hz : HazardMap) (ac : Bool)
    (goal current v : String) (w gc : ℝ) (st : AState) (x : String) :
    x ∈ (relaxUpd g hz ac goal current v w gc st).openList ↔
      (x ∈ st.openList ∨ x = v) := by
  simp only [relaxUpd]
  by_cases hv : v ∈ st.openList
  · rw [if_pos hv]
    constructor
    · exact Or.inl
    · intro h
      rcases h with h | h
      · exact h
      · rw [h]; exact hv
  · rw [if_neg hv]
    simp [List.mem_append]

theorem relaxUpd_pres (g : Graph) (hz : HazardMap) (ac : Bool)
    (start goal current v : String) (w : ℝ) (st : AState)
    (hvw : (v, w) ∈ g.get_neighbors current)
    (hcore : AInvCore g hz ac start goal st)
    (hNRx : ∀ u, u ≠ current → NRfor g hz ac st u)
    (gc : ℝ) (hgc : alook current st.gScore = some gc)
    (hcl : ¬hz.is_closed current v)
    (hup : oLt (some (gc + edge_cost hz ac current v w)) (alook v st.gScore)) :
    AInvCore g hz ac start goal (relaxUpd g hz ac goal current v w gc st) ∧
    (∀ u, u ≠ current → NRfor g hz ac (relaxUpd g hz ac goal current v w gc st) u) ∧
    (alook current (relaxUpd g hz ac goal current v w gc st).gScore).isSome ∧
    (∀ n c, alook n st.gScore = some c →
      ∃ c', alook n (relaxUpd g hz ac goal current v w gc st).gScore = some c' ∧ c' ≤ c) ∧
    (∀ n, n ∈ st.openList → n ∈ (relaxUpd g hz ac goal current v w gc st).openList) ∧
    v ∈ (relaxUpd g hz ac goal current v w gc st).openList ∧
    (v ≠ current →
      alook current (relaxUpd g hz ac goal current v w gc st).gScore =
        alook current st.gScore) := by
  have hgl : ∀ n, alook n (relaxUpd g hz ac goal current v w gc st).gScore =
      if v = n then some (gc + edge_cost hz ac current v w) else alook n st.gScore := by
    intro n
    simp only [relaxUpd]
    exact alook_updA_cases v n _ st.gScore
  have hcfl : ∀ n, alook n (relaxUpd g hz ac goal current v w gc st).cameFrom =
      if v = n then some current else alook n st.cameFrom := by
    intro n
    simp only [relaxUpd]
    exact alook_updA_cases v n _ st.cameFrom
  have hfl : ∀ n, alook n (relaxUpd g hz ac goal current v w gc st).fScore =
      if v = n then some (gc + edge_cost hz ac current v w + g.heuristic v goal)
        else alook n st.fScore := by
    intro n
    simp only [relaxUpd]
    exact alook_updA_cases v n _ st.fScore
  have hdec : ∀ n c, alook n st.gScore = some c →
      ∃ c', alook n (relaxUpd g hz ac goal current v w gc st).gScore = some c' ∧ c' ≤ c := by
    intro n c h
    rw [hgl n]
    by_cases hvn : v = n
    · subst hvn
      rw [if_pos rfl]
      refine ⟨_, rfl, ?_⟩
      rw [h] at hup
      simp only [oLt] at hup
      exact le_of_lt hup
    · rw [if_neg hvn]
      exact ⟨c, h, le_refl c⟩
  refine ⟨⟨?_, ?_, ?_, ?_, ?_, ?_, ?_, ?_, ?_⟩, ?_, ?_, hdec, ?_, ?_, ?_⟩
  · -- openSub
    intro n hn
    rw [hgl n]
    by_cases hvn : v = n
    · rw [if_pos hvn]; exact rfl
    · rw [if_neg hvn]
      rcases (relaxUpd_open_iff g hz ac goal current v w gc st n).mp hn with h | h
      · exact hcore.openSub n h
      · exact absurd h.symm hvn
  · -- openND
    simp only [relaxUpd]
    by_cases hv : v ∈ st.openList
    · rw [if_pos hv]; exact hcore.openND
    · rw [if_neg hv]
      refine List.Nodup.append hcore.openND (List.nodup_singleton v) ?_
      intro a ha hav
      simp only [List.mem_singleton] at hav
      rw [hav] at ha
      exact hv ha
  · -- startDef
    rw [hgl start]
    by_cases hvs : v = start
    · rw [if_pos hvs]; exact rfl
    · rw [if_neg hvs]; exact hcore.startDef
  · -- gReal
    intro n c h
    rw [hgl n] at h
    by_cases hvn : v = n
    · subst hvn
      rw [if_pos rfl] at h
      injection h with h'
      exact ((hcore.gReal current gc hgc).snoc hvw hcl).cost_eqW h'
    · rw [if_neg hvn] at h
      exact hcore.gReal n c h
  · -- cfEdge
    intro n u h
    rw [hcfl n] at h
    by_cases hvn : v = n
    · rw [if_pos hvn] at h
      injection h with h'
      subst h'
      subst hvn
      refine ⟨w, hvw, hcl, ?_⟩
      rw [hgl current, hgl v]
      by_cases hvu : v = current
      · subst hvu
        rw [if_pos rfl]
        rw [hgc] at hup
        simp only [oLt] at hup
        -- self-loop relaxation: tentative < old g[current] forces the
        -- edge cost to be negative, so one extra lap only lowers the score
        refine ⟨_, _, rfl, rfl, ?_⟩
        linarith
      · rw [if_neg hvu, if_pos rfl]
        exact ⟨gc, _, hgc, rfl, le_refl _⟩
    · rw [if_neg hvn] at h
      obtain ⟨w', hm', hcl', gu, gn, hgu, hgn, hle⟩ := hcore.cfEdge n u h
      refine ⟨w', hm', hcl', ?_⟩
      rw [hgl u, hgl n, if_neg hvn]
      by_cases hvu : v = u
      · rw [if_pos hvu]
        rw [← hvu] at hgu
        rw [hgu] at hup
        simp only [oLt] at hup
        refine ⟨_, gn, rfl, hgn, ?_⟩
        rw [← hvu] at hle ⊢
        linarith
      · rw [if_neg hvu]
        exact ⟨gu, gn, hgu, hgn, hle⟩
  · -- gDom
    intro n h
    rw [hgl n] at h
    rw [hcfl n]
    by_cases hvn : v = n
    · rw [if_pos hvn]
      exact Or.inr rfl
    · rw [if_neg hvn] at h
      rw [if_neg hvn]
      exact hcore.gDom n h
  · -- fSync
    intro n
    rw [hfl n, hgl n]
    by_cases hvn : v = n
    · rw [if_pos hvn, if_pos hvn]
      subst hvn
      rfl
    · rw [if_neg hvn, if_neg hvn]
      exact hcore.fSync n
  · -- goalOpen
    intro h
    rw [hgl goal] at h
    rw [relaxUpd_open_iff]
    by_cases hvg : v = goal
    · exact Or.inr hvg.symm
    · rw [if_neg hvg] at h
      exact Or.inl (hcore.goalOpen h)
  · -- startLe
    obtain ⟨gs, hgs, hgs0⟩ := hcore.startLe
    obtain ⟨gs', hgs', hle'⟩ := hdec start gs hgs
    exact ⟨gs', hgs', le_trans hle' hgs0⟩
  · -- NRx preserved
    intro u hu gu' hgu' hnopen x wx hmx hclx
    have hunotv : u ≠ v := by
      intro he
      apply hnopen
      rw [relaxUpd_open_iff]
      exact Or.inr he
    rw [hgl u, if_neg (fun hh => hunotv hh.symm)] at hgu'
    have hnopenold : u ∉ st.openList := by
      intro hmem
      apply hnopen
      rw [relaxUpd_open_iff]
      exact Or.inl hmem
    obtain ⟨gv, hgv, hlev⟩ := hNRx u hu gu' hgu' hnopenold x wx hmx hclx
    rw [relaxedE]
    rw [hgl x]
    by_cases hvx : v = x
    · rw [if_pos hvx]
      rw [← hvx] at hgv
      rw [hgv] at hup
      simp only [oLt] at hup
      exact ⟨_, rfl, by linarith⟩
    · rw [if_neg hvx]
      exact ⟨gv, hgv, hlev⟩
  · -- current still has a g-score
    rw [hgl current]
    by_cases hvc : v = current
    · rw [if_pos hvc]; exact rfl
    · rw [if_neg hvc]; rw [hgc]; exact rfl
  · -- open-list monotone
    intro n hn
    rw [relaxUpd_open_iff]
    exact Or.inl hn
  · -- v enters the open list
    rw [relaxUpd_open_iff]
    exact Or.inr rfl
  · -- when v is not current, current's g-score is untouched
    intro hvc
    rw [hgl current, if_neg hvc]

theorem relaxStep_pres (g : Graph) (hz : HazardMap) (ac : Bool)
    (start goal current : String) (st : AState) (vw : String × ℝ)
    (hvw : vw ∈ g.get_neighbors current)
    (hcore : AInvCore g hz ac start goal st)
    (hNRx : ∀ u, u ≠ current → NRfor g hz ac st u)
    (hcur : (alook current st.gScore).isSome) :
    AInvCore g hz ac start goal (relaxStep g hz ac goal current st vw) ∧
    (∀ u, u ≠ current → NRfor g hz ac (relaxStep g hz ac goal current st vw) u) ∧
    (alook current (relaxStep g hz ac goal current st vw).gScore).isSome ∧
    (∀ n c, alook n st.gScore = some c →
      ∃ c', alook n (relaxStep g hz ac goal current st vw).gScore = some c' ∧ c' ≤ c) ∧
    (∀ n, n ∈ st.openList → n ∈ (relaxStep g hz ac goal current st vw).openList) ∧
    (current ∈ (relaxStep g hz ac goal current st vw).openList ∨
      (alook current (relaxStep g hz ac goal current st vw).gScore =
          alook current st.gScore ∧
        (¬hz.is_closed current vw.1 →
          ∃ gc, alook current (relaxStep g hz ac goal current st vw).gScore = some gc ∧
            relaxedE hz ac (relaxStep g hz ac goal current st vw).gScore
              current gc vw.1 vw.2))) := by
  obtain ⟨v, w⟩ := vw
  obtain ⟨gc, hgc⟩ := Option.isSome_iff_exists.mp hcur
  by_cases hcl : hz.is_closed current v
  · -- closed edge: state unchanged, relaxation obligation vacuous
    have hstep : relaxStep g hz ac goal current st (v, w) = st := by
      simp only [relaxStep, if_pos hcl]
    rw [hstep]
    exact ⟨hcore, hNRx, hcur, fun n c h => ⟨c, h, le_refl c⟩, fun n h => h,
      Or.inr ⟨rfl, fun h => absurd hcl h⟩⟩
  · by_cases hup : oLt (some (gc + edge_cost hz ac current v w)) (alook v st.gScore)
    · -- strict improvement: the update state
      have hstep : relaxStep g hz ac goal current st (v, w) =
          relaxUpd g hz ac goal current v w gc st := by
        simp only [relaxStep, if_neg hcl, hgc, if_pos hup]
      rw [hstep]
      obtain ⟨hc1, hc2, hc3, hc4, hc5, hc6, hc7⟩ :=
        relaxUpd_pres g hz ac start goal current v w st hvw hcore hNRx gc hgc hcl hup
      refine ⟨hc1, hc2, hc3, hc4, hc5, ?_⟩
      by_cases hvc : v = current
      · left
        rw [← hvc]
        exact hc6
      · right
        refine ⟨hc7 hvc, fun _ => ?_⟩
        refine ⟨gc, by rw [hc7 hvc]; exact hgc, ?_⟩
        refine ⟨gc + edge_cost hz ac current v w, ?_, le_refl _⟩
        simp only [relaxUpd]
        exact alook_updA_self v _ st.gScore
    · -- no improvement: state unchanged, the existing score witnesses
      have hstep : relaxStep g hz ac goal current st (v, w) = st := by
        simp only [relaxStep, if_neg hcl, hgc, if_neg hup]
      rw [hstep]
      refine ⟨hcore, hNRx, hcur, fun n c h => ⟨c, h, le_refl c⟩, fun n h => h,
        Or.inr ⟨rfl, fun _ => ⟨gc, hgc, ?_⟩⟩⟩
      rw [not_oLt_iff_oLe] at hup
      rcases hv : alook v st.gScore with _ | gv
      · rw [hv] at hup
        simp [oLe] at hup
      · rw [hv] at hup
        simp only [oLe] at hup
        exact ⟨gv, hv, hup⟩

theorem relaxAll_pres (g : Graph) (hz : HazardMap) (ac : Bool)
    (start goal current : String) :
    ∀ (todo : List (String × ℝ)) (st : AState),
    (∀ vw ∈ todo, vw ∈ g.get_neighbors current) →
    AInvCore g hz ac start goal st →
    (∀ u, u ≠ current → NRfor g hz ac st u) →
    (alook current st.gScore).isSome →
    AInvCore g hz ac start goal (relaxAll g hz ac goal current todo st) ∧
    (∀ u, u ≠ current → NRfor g hz ac (relaxAll g hz ac goal current todo st) u) ∧
    (alook current (relaxAll g hz ac goal current todo st).gScore).isSome ∧
    (∀ n c, alook n st.gScore = some c →
      ∃ c', alook n (relaxAll g hz ac goal current todo st).gScore = some c' ∧ c' ≤ c) ∧
    (∀ n, n ∈ st.openList → n ∈ (relaxAll g hz ac goal current todo st).openList) ∧
    (current ∈ (relaxAll g hz ac goal current todo st).openList ∨
      (alook current (relaxAll g hz ac goal current todo st).gScore =
          alook current st.gScore ∧
        ∀ vw ∈ todo, ¬hz.is_closed current vw.1 →
          ∃ gc, alook current (relaxAll g hz ac goal current todo st).gScore = some gc ∧
            relaxedE hz ac (relaxAll g hz ac goal current todo st).gScore
              current gc vw.1 vw.2)) := by
  intro todo
  induction todo with
  | nil =>
    intro st _ hcore hNRx hcur
    exact ⟨hcore, hNRx, hcur, fun n c h => ⟨c, h, le_refl c⟩, fun n h => h,
      Or.inr ⟨rfl, fun vw hvw => absurd hvw (List.not_mem_nil vw)⟩⟩
  | cons vw rest ih =>
    intro st htodo hcore hNRx hcur
    obtain ⟨s1, s2, s3, s4, s5, s6⟩ :=
      relaxStep_pres g hz ac start goal current st vw
        (htodo vw (List.mem_cons_self vw rest)) hcore hNRx hcur
    obtain ⟨i1, i2, i3, i4, i5, i6⟩ :=
      ih (relaxStep g hz ac goal current st vw)
        (fun x hx => htodo x (List.mem_cons_of_mem vw hx)) s1 s2 s3
    have hall : relaxAll g hz ac goal current (vw :: rest) st =
        relaxAll g hz ac goal current rest (relaxStep g hz ac goal current st vw) := rfl
    rw [hall]
    refine ⟨i1, i2, i3, ?_, ?_, ?_⟩
    · intro n c h
      obtain ⟨c1, hc1, hle1⟩ := s4 n c h
      obtain ⟨c2, hc2, hle2⟩ := i4 n c1 hc1
      exact ⟨c2, hc2, le_trans hle2 hle1⟩
    · intro n h
      exact i5 n (s5 n h)
    · rcases i6 with hL | ⟨heq2, hrest2⟩
      · exact Or.inl hL
      · rcases s6 with hL1 | ⟨heq1, hvwrel⟩
        · exact Or.inl (i5 current hL1)
        · right
          refine ⟨heq2.trans heq1, ?_⟩
          intro x hx hclx
          rcases List.mem_cons.mp hx with hx | hx
          · subst hx
            obtain ⟨gc, hgcl, gv, hgv, hle⟩ := hvwrel hclx
            refine ⟨gc, by rw [heq2]; exact hgcl, ?_⟩
            obtain ⟨gv', hgv', hle'⟩ := i4 x.1 gv hgv
            exact ⟨gv', hgv', le_trans hle' hle⟩
          · exact hrest2 x hx hclx

theorem erase_core (g : Graph) (hz : HazardMap) (ac : Bool) (start goal current : String)
    (st : AState) (hinv : AInv g hz ac start goal st)
    (hmem : current ∈ st.openList) (hne : current ≠ goal) :
    AInvCore g hz ac start goal { st with openList := st.openList.erase current } ∧
    (∀ u, u ≠ current →
      NRfor g hz ac { st with openList := st.openList.erase current } u) ∧
    (alook current { st with openList := st.openList.erase current }.gScore).isSome := by
  have hsub : ∀ x, x ∈ st.openList.erase current → x ∈ st.openList :=
    fun x hx => List.mem_of_mem_erase hx
  refine ⟨⟨?_, ?_, hinv.startDef, hinv.gReal, hinv.cfEdge, hinv.gDom, hinv.fSync, ?_,
    hinv.startLe⟩, ?_, ?_⟩
  · intro n hn
    exact hinv.openSub n (hsub n hn)
  · exact hinv.openND.erase current
  · intro h
    have hg := hinv.goalOpen h
    exact List.mem_erase_of_ne (Ne.symm hne) |>.mpr hg
  · intro u hu gu hgu hnopen v w hmv hcl
    have hnopenold : u ∉ st.openList := by
      intro hmemu
      exact hnopen (List.mem_erase_of_ne hu |>.mpr hmemu)
    exact hinv.NR u gu hgu hnopenold v w hmv hcl
  · exact hinv.openSub current hmem

/-- One full iteration of the A* loop body (pop `current ≠ goal`, relax all
its neighbors) preserves the loop invariant. -/
theorem astar_iter_inv (g : Graph) (hz : HazardMap) (ac : Bool)
    (start goal current : String) (st : AState) (hinv : AInv g hz ac start goal st)
    (hmem : current ∈ st.openList) (hne : current ≠ goal) :
    AInv g hz ac start goal
      (relaxAll g hz ac goal current (g.get_neighbors current)
        { st with openList := st.openList.erase current }) := by
  obtain ⟨hcore, hNRx, hcur⟩ := erase_core g hz ac start goal current st hinv hmem hne
  obtain ⟨i1, i2, _, _, _, i6⟩ :=
    relaxAll_pres g hz ac start goal current (g.get_neighbors current)
      { st with openList := st.openList.erase current } (fun x hx => hx) hcore hNRx hcur
  refine ⟨i1, ?_⟩
  intro u
  by_cases hu : u = current
  · subst hu
    intro gu hgu hnopen v w hmv hcl
    rcases i6 with hL | ⟨_, hrel⟩
    · exact absurd hL hnopen
    · obtain ⟨gc, hgcl, gv, hgv, hle⟩ := hrel (v, w) hmv hcl
      rw [hgu] at hgcl
      injection hgcl with hgcl'
      exact ⟨gv, hgv, by rw [hgcl']; exact hle⟩
  · exact i2 u hu

/-! ## Reconstruction analysis -/

theorem reconstructGo_spec (cf : List (String × String)) :
    ∀ (fuel : ℕ) (current : String) (rest p : List String),
    reconstructGo cf fuel current (current :: rest) = some p →
    ∃ q, p = q ++ rest ∧ q ≠ [] ∧ q.getLast? = some current ∧
      List.Chain' (fun a b => alook b cf = some a) q ∧
      ∃ h, q.head? = some h ∧ alook h cf = none := by
  intro fuel
  induction fuel with
  | zero =>
    intro current rest p h
    simp [reconstructGo] at h
  | succ fuel ih =>
    intro current rest p h
    simp only [reconstructGo] at h
    rcases hcf : alook current cf with _ | prev
    · rw [hcf] at h
      injection h with h'
      refine ⟨[current], by rw [← h']; rfl, by simp, by simp, by simp, current, by simp, hcf⟩
    · rw [hcf] at h
      obtain ⟨q', hp, hne, hlast, hchain, hh, hhead, hhcf⟩ :=
        ih prev (current :: rest) p h
      refine ⟨q' ++ [current], ?_, by simp, ?_, ?_, hh, ?_, hhcf⟩
      · rw [hp, List.append_assoc]
        rfl
      · rw [List.getLast?_append]
        simp
      · rw [List.chain'_append]
        refine ⟨hchain, List.chain'_singleton current, ?_⟩
        intro x hx y hy
        simp only [List.head?_cons, Option.mem_def, Option.some.injEq] at hy
        rw [hlast] at hx
        simp only [Option.mem_def, Option.some.injEq] at hx
        rw [← hy, ← hx]
        exact hcf
      · rcases q' with _ | ⟨a, q''⟩
        · exact absurd rfl hne
        · simp only [List.cons_append, List.head?_cons]
          simpa using hhead

theorem reconstruct_path_spec {cf : List (String × String)} {current : String}
    {p : List String} (h : reconstruct_path cf current = some p) :
    p ≠ [] ∧ p.getLast? = some current ∧
      List.Chain' (fun a b => alook b cf = some a) p ∧
      ∃ hd, p.head? = some hd ∧ alook hd cf = none := by
  obtain ⟨q, hp, hne, hlast, hchain, hh, hhead, hhcf⟩ :=
    reconstructGo_spec cf (cf.length + 1) current [] p h
  rw [List.append_nil] at hp
  subst hp
  exact ⟨hne, hlast, hchain, hh, hhead, hhcf⟩

/-- A successfully reconstructed path starts at `start`, ends at the popped
goal, and walks only along non-closed graph edges. -/
theorem found_path_spec {g : Graph} {hz : HazardMap} {ac : Bool}
    {start goal : String} {st : AState} (hinv : AInv g hz ac start goal st)
    (hgv : (alook goal st.gScore).isSome) {p : List String}
    (hrec : reconstruct_path st.cameFrom goal = some p) :
    p ≠ [] ∧ p.head? = some start ∧ p.getLast? = some goal ∧
      List.Chain' (openStep g hz) p := by
  obtain ⟨hne, hlast, hchain, hd, hhead, hhcf⟩ := reconstruct_path_spec hrec
  have hopen : List.Chain' (openStep g hz) p := by
    refine List.Chain'.imp ?_ hchain
    intro a b hab
    obtain ⟨w, hm, hcl, _⟩ := hinv.cfEdge b a hab
    exact ⟨⟨w, hm⟩, hcl⟩
  refine ⟨hne, ?_, hlast, hopen⟩
  rcases p with _ | ⟨x, tl⟩
  · exact absurd rfl hne
  · simp only [List.head?_cons, Option.some.injEq] at hhead
    subst hhead
    rcases tl with _ | ⟨y, tl'⟩
    · -- singleton path: the head is the goal itself
      simp only [List.getLast?_singleton, Option.some.injEq] at hlast
      subst hlast
      rcases hinv.gDom x hgv with h | h
      · simp [h]
      · rw [hhcf] at h
        simp at h
    · -- the first reconstruction link pins the head into the g-score domain
      have hlink : alook y st.cameFrom = some x := by
        have := List.chain'_cons.mp hchain
        exact this.1
      obtain ⟨w, _, _, gu, gn, hgu, _, _⟩ := hinv.cfEdge y x hlink
      have hxg : (alook x st.gScore).isSome := by rw [hgu]; rfl
      rcases hinv.gDom x hxg with h | h
      · simp [h]
      · rw [hhcf] at h
        simp at h

/-- Telescoping the `came_from` chain: the reconstructed node list realizes
a penalized walk whose cost is bounded by the difference of the endpoint
`g_score`s. -/
theorem chain_cost {g : Graph} {hz : HazardMap} {ac : Bool} {start goal : String}
    {st : AState} (hinv : AInv g hz ac start goal st) :
    ∀ (p : List String), List.Chain' (fun a b => alook b st.cameFrom = some a) p →
    ∀ (hd lst : String) (ghd glst : ℝ), p.head? = some hd → p.getLast? = some lst →
    alook hd st.gScore = some ghd → alook lst st.gScore = some glst →
    ∃ cl, CWalkL g hz ac p cl ∧ ghd + cl ≤ glst := by
  intro p
  induction p with
  | nil => intro _ hd lst ghd glst hh; simp at hh
  | cons x tl ih =>
    intro hchain hd lst ghd glst hh hl hghd hglst
    simp only [List.head?_cons, Option.some.injEq] at hh
    subst hh
    rcases tl with _ | ⟨y, tl'⟩
    · simp only [List.getLast?_singleton, Option.some.injEq] at hl
      subst hl
      rw [hghd] at hglst
      injection hglst with he
      exact ⟨0, CWalkL.single x, by rw [he]; linarith⟩
    · obtain ⟨hlink, hchain'⟩ := List.chain'_cons.mp hchain
      obtain ⟨w, hm, hcl, gu, gn, hgu, hgn, hle⟩ := hinv.cfEdge y x hlink
      rw [hghd] at hgu
      injection hgu with hgu'
      have hl' : (y :: tl').getLast? = some lst := by
        rw [← hl]
        simp [List.getLast?_cons_cons]
      obtain ⟨cl', hwalk', hle'⟩ := ih hchain' y lst gn glst rfl hl' hgn hglst
      refine ⟨edge_cost hz ac x y w + cl', CWalkL.cons hm hcl hwalk', ?_⟩
      rw [← hgu'] at hle
      linarith

/-- When the open set has emptied, every node with a `g_score` has all its
usable out-edges relaxed, so the scored region is closed under non-closed
edges — and the goal never received a score, hence is unreachable. -/
theorem empty_open_unreachable {g : Graph} {hz : HazardMap} {ac : Bool}
    {start goal : String} {st : AState} (hinv : AInv g hz ac start goal st)
    (hempty : st.openList = []) : ¬Reachable g hz start goal := by
  rintro ⟨c, hw⟩
  have hdom : ∀ u t c', BWalk g hz u t c' →
      (alook u st.gScore).isSome → (alook t st.gScore).isSome := by
    intro u t c' hw'
    induction hw' with
    | refl s => exact id
    | cons hm hcl _ ih =>
      intro hu
      obtain ⟨gu, hgu⟩ := Option.isSome_iff_exists.mp hu
      obtain ⟨gv, hgv, _⟩ :=
        hinv.NR _ gu hgu (by rw [hempty]; exact List.not_mem_nil _) _ _ hm hcl
      exact ih (by rw [hgv]; rfl)
  have hgoal := hdom start goal c hw hinv.startDef
  have hmem := hinv.goalOpen hgoal
  rw [hempty] at hmem
  exact List.not_mem_nil goal hmem

/-- Soundness of the A* loop: a completed run that reports no path means the
goal is unreachable along non-closed edges, and a completed run that returns
a path returns a genuine walk from `start` to `goal` along non-closed graph
edges whose reported cost is realized by some walk, with the returned node
list itself realizing a cost bounded by the reported one. -/
theorem astarLoop_sound (g : Graph) (hz : HazardMap) (ac : Bool) (start goal : String) :
    ∀ (fuel : ℕ) (st : AState), AInv g hz ac start goal st →
    (astarLoop g hz goal ac fuel st = some none → ¬Reachable g hz start goal) ∧
    (∀ p c, astarLoop g hz goal ac fuel st = some (some (p, c)) →
      p ≠ [] ∧ p.head? = some start ∧ p.getLast? = some goal ∧
      List.Chain' (openStep g hz) p ∧ CWalk g hz ac start goal c ∧
      ∃ cl gs, CWalkL g hz ac p cl ∧ gs ≤ 0 ∧ CWalk g hz ac start start gs ∧
        gs + cl ≤ c) := by
  intro fuel
  induction fuel with
  | zero =>
    intro st _
    constructor
    · intro h
      simp [astarLoop] at h
    · intro p c h
      simp [astarLoop] at h
  | succ fuel ih =>
    intro st hinv
    rcases hpick : pickMin st.fScore st.openList with _ | current
    · -- open set empty: report (None, inf)
      constructor
      · intro _
        exact empty_open_unreachable hinv ((pickMin_none_iff _ _).mp hpick)
      · intro p c h
        simp only [astarLoop, hpick] at h
        exact absurd h (by simp)
    · by_cases hgoal : current = goal
      · subst hgoal
        have hgv : (alook current st.gScore).isSome :=
          hinv.openSub current (pickMin_mem hpick)
        obtain ⟨gv, hgvv⟩ := Option.isSome_iff_exists.mp hgv
        rcases hrec : reconstruct_path st.cameFrom current with _ | p0
        · -- cyclic came_from: the model run is marked divergent
          constructor
          · intro h
            simp [astarLoop, hpick, hgvv, hrec] at h
          · intro p c h
            simp [astarLoop, hpick, hgvv, hrec] at h
        · constructor
          · intro h
            simp [astarLoop, hpick, hgvv, hrec] at h
          · intro p c h
            simp only [astarLoop, hpick, hgvv, hrec] at h
            rw [if_pos trivial] at h
            injection h with h'
            injection h' with h''
            have hp : p0 = p := congrArg Prod.fst h''
            have hc : gv = c := congrArg Prod.snd h''
            subst hp
            subst hc
            obtain ⟨hne, hhead, hlast, hchain⟩ := found_path_spec hinv hgv hrec
            obtain ⟨_, _, hcfchain, _⟩ := reconstruct_path_spec hrec
            obtain ⟨gs, hgs, hgs0⟩ := hinv.startLe
            obtain ⟨cl, hwalkl, hlecl⟩ :=
              chain_cost hinv p0 hcfchain start current gs gv hhead hlast hgs hgvv
            exact ⟨hne, hhead, hlast, hchain, hinv.gReal current gv hgvv,
              cl, gs, hwalkl, hgs0, hinv.gReal start gs hgs, hlecl⟩
      · have hnext := astar_iter_inv g hz ac start goal current st hinv
          (pickMin_mem hpick) hgoal
        have hstep : astarLoop g hz goal ac (fuel + 1) st =
            astarLoop g hz goal ac fuel
              (relaxAll g hz ac goal current (g.get_neighbors current)
                { st with openList := st.openList.erase current }) := by
          simp only [astarLoop, hpick, if_neg hgoal]
        rw [hstep]
        exact ih _ hnext

/-- A nonempty chain of usable steps witnesses reachability. -/
theorem chain_reachable {g : Graph} {hz : HazardMap} :
    ∀ (p : List String), List.Chain' (openStep g hz) p →
    ∀ s t, p.head? = some s → p.getLast? = some t → Reachable g hz s t := by
  intro p
  induction p with
  | nil => intro _ s t hh; simp at hh
  | cons x tl ih =>
    intro hchain s t hh hl
    simp only [List.head?_cons, Option.some.injEq] at hh
    subst hh
    rcases tl with _ | ⟨y, tl'⟩
    · simp only [List.getLast?_singleton, Option.some.injEq] at hl
      subst hl
      exact ⟨0, BWalk.refl x⟩
    · obtain ⟨⟨⟨w, hm⟩, hcl⟩, hchain'⟩ := List.chain'_cons.mp hchain
      have hl' : (y :: tl').getLast? = some t := by
        rw [← hl]; simp [List.getLast?_cons_cons]
      obtain ⟨c, hw⟩ := ih hchain' y t rfl hl'
      exact ⟨w + c, BWalk.cons hm hcl hw⟩

/-- Consecutive entries of a `Chain'` are related. -/
theorem chain'_consecutive {α : Type} {R : α → α → Prop} :
    ∀ (l : List α), List.Chain' R l → ∀ (i : ℕ) (x y : α),
      l[i]? = some x → l[i+1]? = some y → R x y := by
  intro l
  induction l with
  | nil => intro _ i x y hx; simp at hx
  | cons z tl ih =>
    intro hchain i x y hx hy
    rcases i with _ | i
    · simp only [List.getElem?_cons_zero, Option.some.injEq] at hx
      subst hx
      simp only [List.getElem?_cons_succ] at hy
      rcases tl with _ | ⟨u, tl'⟩
      · simp at hy
      · simp only [List.getElem?_cons_zero, Option.some.injEq] at hy
        subst hy
        exact (List.chain'_cons.mp hchain).1
    · simp only [List.getElem?_cons_succ] at hx hy
      rcases tl with _ | ⟨u, tl'⟩
      · simp at hx
      · exact ih (List.chain'_cons.mp hchain).2 i x y hx hy

/-- The found-path conclusions for a full `hazard_aware_astar` call (no
assumptions: the node-existence guard can only produce the no-path result). -/
theorem hazard_aware_astar_found {g : Graph} {hz : HazardMap} {ac : Bool}
    {start goal : String} {fuel : ℕ} {p : List String} {c : ℝ}
    (h : hazard_aware_astar g start goal hz ac fuel = some (some (p, c))) :
    p ≠ [] ∧ p.head? = some start ∧ p.getLast? = some goal ∧
      List.Chain' (openStep g hz) p ∧ CWalk g hz ac start goal c ∧
      ∃ cl gs, CWalkL g hz ac p cl ∧ gs ≤ 0 ∧ CWalk g hz ac start start gs ∧
        gs + cl ≤ c := by
  by_cases hguard : (g.get_node start).isNone ∨ (g.get_node goal).isNone
  · rw [hazard_aware_astar, if_pos hguard] at h
    simp at h
  · rw [hazard_aware_astar, if_neg hguard] at h
    exact (astarLoop_sound g hz ac start goal fuel _
      (AInv_init g hz ac start goal)).2 p c h

/-- The no-path conclusion for a full `hazard_aware_astar` call between
nodes that exist in the graph. -/
theorem hazard_aware_astar_none {g : Graph} {hz : HazardMap} {ac : Bool}
    {start goal : String} {fuel : ℕ}
    (hs : (g.get_node start).isSome) (ht : (g.get_node goal).isSome)
    (h : hazard_aware_astar g start goal hz ac fuel = some none) :
    ¬Reachable g hz start goal := by
  have hguard : ¬((g.get_node start).isNone ∨ (g.get_node goal).isNone) := by
    rcases hg : g.get_node start with _ | n1
    · rw [hg] at hs; simp at hs
    · rcases hg2 : g.get_node goal with _ | n2
      · rw [hg2] at ht; simp at ht
      · simp
  rw [hazard_aware_astar, if_neg hguard] at h
  exact (astarLoop_sound g hz ac start goal fuel _
    (AInv_init g hz ac start goal)).1 h

/-- Claim C9: for nodes present in the graph, a completed `findPath` run
returns the no-path signal `(None, +inf)` exactly when no route along
non-closed edges exists; otherwise it returns a finite-cost path that
starts at `start`, ends at `goal`, and whose consecutive pairs are all
(non-closed) edges of the graph. -/
theorem claim_C9 (g : Graph) (hz : HazardMap) (ac : Bool) (start goal : String)
    (fuel : ℕ) (hs : (g.get_node start).isSome) (ht : (g.get_node goal).isSome)
    (r : Option (List String × ℝ))
    (hr : hazard_aware_astar g start goal hz ac fuel = some r) :
    (r = none ↔ ¬Reachable g hz start goal) ∧
    (∀ p c, r = some (p, c) → p.head? = some start ∧ p.getLast? = some goal ∧
      List.Chain' (openStep g hz) p) := by
  constructor
  · constructor
    · intro hnone
      subst hnone
      exact hazard_aware_astar_none hs ht hr
    · intro hunreach
      rcases r with _ | ⟨p, c⟩
      · rfl
      · exfalso
        obtain ⟨_, hhead, hlast, hchain, _⟩ := hazard_aware_astar_found hr
        exact hunreach (chain_reachable p hchain start goal hhead hlast)
  · intro p c hpc
    subst hpc
    obtain ⟨_, hhead, hlast, hchain, _⟩ := hazard_aware_astar_found hr
    exact ⟨hhead, hlast, hchain⟩

/-- Claim C1: after `addClosure(a, b)`, no returned path contains the edge
`(a, b)` or `(b, a)` as consecutive nodes, for any start/goal pair and any
`avoidCrowds` value; and `removeClosure(a, b)` afterwards restores the
hazard map exactly (hence all reachability) whenever the edge was not
already closed before. -/
theorem claim_C1 (g : Graph) (hz : HazardMap) (a b : String) :
    (∀ (start goal : String) (ac : Bool) (fuel : ℕ) (p : List String) (c : ℝ),
      hazard_aware_astar g start goal (hz.add_closure a b) ac fuel = some (some (p, c)) →
      ∀ i : ℕ, ¬(p[i]? = some a ∧ p[i+1]? = some b) ∧
        ¬(p[i]? = some b ∧ p[i+1]? = some a)) ∧
    ((a, b) ∉ hz.closures → (b, a) ∉ hz.closures →
      (hz.add_closure a b).remove_closure a b = hz) := by
  constructor
  · intro start goal ac fuel p c h i
    obtain ⟨_, _, _, hchain, _⟩ := hazard_aware_astar_found h
    constructor
    · rintro ⟨hx, hy⟩
      obtain ⟨_, hopen⟩ := chain'_consecutive p hchain i a b hx hy
      exact hopen (by simp [HazardMap.is_closed, HazardMap.add_closure])
    · rintro ⟨hx, hy⟩
      obtain ⟨_, hopen⟩ := chain'_consecutive p hchain i b a hx hy
      exact hopen (by simp [HazardMap.is_closed, HazardMap.add_closure])
  · intro ha hb
    simp only [HazardMap.remove_closure, HazardMap.add_closure]
    have hfa : ∀ e ∈ hz.closures, ¬(e = (a, b) ∨ e = (b, a)) := by
      intro e he
      rintro (rfl | rfl)
      · exact ha he
      · exact hb he
    cases hz with
    | mk cs nh eh =>
      simp only [HazardMap.mk.injEq]
      refine ⟨?_, trivial, trivial⟩
      rw [List.filter_cons, List.filter_cons]
      have h1 : ¬((a, b) = (a, b) ∨ (a, b) = (b, a)) ↔ False := by simp
      have h2 : (decide ¬((a, b) = (a, b) ∨ ((a, b) : String × String) = (b, a))) = false := by
        simp
      have h3 : (decide ¬(((b, a) : String × String) = (a, b) ∨ ((b, a) : String × String) = (b, a))) = false := by
        simp
      rw [h2, h3]
      simp only [Bool.false_eq_true, if_false]
      rw [List.filter_eq_self.mpr]
      intro e he
      simp only [decide_eq_true_iff]
      exact hfa e he

/-! ## Nonnegative costs -/

/-- Every usable edge has nonnegative penalized cost (true in particular for
nonnegative weights and nonnegative stored severities). -/
def CostNonneg (g : Graph) (hz : HazardMap) (ac : Bool) : Prop :=
  ∀ u v w, (v, w) ∈ g.get_neighbors u → 0 ≤ edge_cost hz ac u v w

theorem CWalk_nonneg {g : Graph} {hz : HazardMap} {ac : Bool}
    (hnn : CostNonneg g hz ac) {s t : String} {c : ℝ}
    (h : CWalk g hz ac s t c) : 0 ≤ c := by
  induction h with
  | refl s => exact le_refl 0
  | cons hm _ _ ih =>
    have := hnn _ _ _ hm
    linarith

theorem calculate_eta_with_role_nonneg {d : ℝ} (hd : 0 ≤ d) (role : String) :
    0 ≤ calculate_eta_with_role d role := by
  have hspeed : ∀ sp : ℝ, 0 ≤ sp → 0 ≤ calculate_eta d sp := by
    intro sp hsp
    have hq : 0 ≤ d / sp := div_nonneg hd hsp
    simp only [calculate_eta, pyInt, if_pos hq]
    exact Int.floor_nonneg.mpr hq
  unfold calculate_eta_with_role
  split_ifs <;> apply hspeed <;> norm_num

theorem calculate_eta_with_role_zero (role : String) :
    calculate_eta_with_role 0 role = 0 := by
  have hzero : ∀ sp : ℝ, calculate_eta 0 sp = 0 := by
    intro sp
    simp [calculate_eta, pyInt]
  unfold calculate_eta_with_role
  split_ifs <;> exact hzero _

/-- The four priority weights (and the default) are all strictly positive. -/
theorem priorityWeight_pos (p : String) : 0 < priorityWeight p := by
  unfold priorityWeight
  split_ifs <;> norm_num

/-- A goal identical to the start is popped on the very first iteration:
`findPath(g, hz, s, s, ac)` is `([s], 0.0)` whatever the hazards, closures,
or `avoidCrowds` flag. -/
theorem astar_self (g : Graph) (hz : HazardMap) (ac : Bool) (s : String) (fuel : ℕ)
    (hs : (g.get_node s).isSome) (hf : 1 ≤ fuel) :
    hazard_aware_astar g s s hz ac fuel = some (some ([s], 0)) := by
  obtain ⟨f, rfl⟩ : ∃ f, fuel = f + 1 := ⟨fuel - 1, by omega⟩
  have hguard : ¬((g.get_node s).isNone ∨ (g.get_node s).isNone) := by
    rintro (h | h) <;> (rw [Option.isNone_iff_eq_none] at h; rw [h] at hs; simp at hs)
  rw [hazard_aware_astar, if_neg hguard]
  simp only [astarLoop, pickMin, pickMinAux]
  rw [if_pos trivial]
  simp [alook, reconstruct_path, reconstructGo]

/-! ## Nearest-responder analysis -/

/-- Provenance of a candidate assignment produced by the responder loop:
its path/distance come from a completed crowd-avoiding A* run to the
incident, and its ETA is derived from that distance and its role speed. -/
def AssignOK (g : Graph) (hz : HazardMap) (incident : EmergencyIncident) (fuel : ℕ)
    (a : ResponderAssignment) : Prop :=
  hazard_aware_astar g a.current_position incident.location hz true fuel =
      some (some (a.path, a.distance)) ∧
    a.eta_seconds = calculate_eta_with_role a.distance a.staff_role.value ∧
    a.incident_location = incident.location ∧
    a.priority = incident.priority

theorem fnrLoop_spec (g : Graph) (hz : HazardMap) (incident : EmergencyIncident)
    (weight : ℝ) (fuel : ℕ) :
    ∀ (staff : List StaffMember) (best : Option ResponderAssignment) (bw : Option ℝ)
      (res : Option ResponderAssignment × Option ℝ),
    fnrLoop g hz incident weight fuel staff best bw = some res →
    bw = best.map (fun a => (a.eta_seconds : ℝ) * weight) →
    (∀ a, best = some a → AssignOK g hz incident fuel a) →
    (res.2 = res.1.map (fun a => (a.eta_seconds : ℝ) * weight) ∧
      (∀ a, res.1 = some a → AssignOK g hz incident fuel a) ∧
      oLe res.2 bw ∧
      (∀ s ∈ staff, ∀ p d,
        hazard_aware_astar g s.current_position incident.location hz true fuel =
          some (some (p, d)) → p ≠ [] →
        oLe res.2 (some ((calculate_eta_with_role d s.role.value : ℝ) * weight)))) := by
  intro staff
  induction staff with
  | nil =>
    intro best bw res h hsync hok
    simp only [fnrLoop] at h
    injection h with h'
    subst h'
    exact ⟨hsync, hok, oLe_refl bw, fun s hs => absurd hs (List.not_mem_nil s)⟩
  | cons s rest ih =>
    intro best bw res h hsync hok
    simp only [fnrLoop] at h
    rcases hastar : hazard_aware_astar g s.current_position incident.location hz true fuel
      with _ | rr
    · rw [hastar] at h
      simp at h
    · rw [hastar] at h
      rcases rr with _ | ⟨p, d⟩
      · -- no path: candidate skipped
        dsimp only at h
        obtain ⟨h1, h2, h3, h4⟩ := ih best bw res h hsync hok
        refine ⟨h1, h2, h3, ?_⟩
        intro x hx p' d' hx2 hpne
        rcases List.mem_cons.mp hx with hx | hx
        · subst hx
          rw [hastar] at hx2
          simp at hx2
        · exact h4 x hx p' d' hx2 hpne
      · dsimp only at h
        by_cases hpe : p = []
        · rw [if_pos hpe] at h
          obtain ⟨h1, h2, h3, h4⟩ := ih best bw res h hsync hok
          refine ⟨h1, h2, h3, ?_⟩
          intro x hx p' d' hx2 hpne
          rcases List.mem_cons.mp hx with hx | hx
          · subst hx
            rw [hastar] at hx2
            injection hx2 with hx3
            injection hx3 with hx4
            have : p = p' := congrArg Prod.fst hx4
            rw [← this] at hpne
            exact absurd hpe hpne
          · exact h4 x hx p' d' hx2 hpne
        · rw [if_neg hpe] at h
          by_cases hlt : oLt
              (some ((calculate_eta_with_role d s.role.value : ℝ) * weight)) bw
          · rw [if_pos hlt] at h
            have hok2 : ∀ a : ResponderAssignment,
                (some { staff_id := s.id, staff_role := s.role,
                        current_position := s.current_position,
                        incident_location := incident.location, path := p, distance := d,
                        eta_seconds := calculate_eta_with_role d s.role.value,
                        priority := incident.priority } :
                  Option ResponderAssignment) = some a →
                AssignOK g hz incident fuel a := by
              intro a ha
              injection ha with ha'
              rw [← ha']
              exact ⟨hastar, rfl, rfl, rfl⟩
            obtain ⟨h1, h2, h3, h4⟩ := ih _ _ res h rfl hok2
            refine ⟨h1, h2, oLe_trans h3 (oLe_of_oLt hlt), ?_⟩
            intro x hx p' d' hx2 hpne
            rcases List.mem_cons.mp hx with hx | hx
            · subst hx
              rw [hastar] at hx2
              injection hx2 with hx3
              injection hx3 with hx4
              have hd : d = d' := congrArg Prod.snd hx4
              rw [← hd]
              exact h3
            · exact h4 x hx p' d' hx2 hpne
          · rw [if_neg hlt] at h
            obtain ⟨h1, h2, h3, h4⟩ := ih best bw res h hsync hok
            refine ⟨h1, h2, h3, ?_⟩
            intro x hx p' d' hx2 hpne
            rcases List.mem_cons.mp hx with hx | hx
            · subst hx
              rw [hastar] at hx2
              injection hx2 with hx3
              injection hx3 with hx4
              have hd : d = d' := congrArg Prod.snd hx4
              rw [← hd]
              exact oLe_trans h3 ((not_oLt_iff_oLe _ _).mp hlt)
            · exact h4 x hx p' d' hx2 hpne

/-- Claim C10: routing a node to itself returns the singleton path `[s]`
with cost `0.0` — whatever the hazards, closures, or `avoidCrowds` flag —
and consequently a responder already positioned at the incident location
always yields an assignment (never `None`), whose ETA is `0` seconds
whenever edge costs are nonnegative. -/
theorem claim_C10 (g : Graph) (hz : HazardMap) (ac : Bool) (s : String) (fuel : ℕ)
    (hs : (g.get_node s).isSome) (hf : 1 ≤ fuel) :
    hazard_aware_astar g s s hz ac fuel = some (some ([s], 0)) ∧
    (∀ (incident : EmergencyIncident) (tracker : StaffTracker)
        (m : StaffMember) (res : Option ResponderAssignment),
      m ∈ tracker.get_available_by_role incident.required_role →
      m.current_position = incident.location →
      incident.location = s →
      find_nearest_responder g incident tracker hz fuel = some res →
      ∃ a, res = some a ∧ (CostNonneg g hz true → a.eta_seconds = 0)) := by
  refine ⟨astar_self g hz ac s fuel hs hf, ?_⟩
  intro incident tracker m res hm hpos hloc hres
  rcases havail : tracker.get_available_by_role incident.required_role with _ | ⟨a0, arest⟩
  · rw [havail] at hm
    exact absurd hm (List.not_mem_nil m)
  · rw [find_nearest_responder, havail] at hres
    obtain ⟨pair, hpair, hres1⟩ := Option.map_eq_some'.mp hres
    obtain ⟨h1, h2, h3, h4⟩ :=
      fnrLoop_spec g hz incident (priorityWeight incident.priority) fuel
        (a0 :: arest) none none pair hpair rfl (by intro a ha; simp at ha)
    have hself : hazard_aware_astar g m.current_position incident.location hz true fuel =
        some (some ([incident.location], 0)) := by
      rw [hpos, hloc]
      exact astar_self g hz true s fuel hs hf
    rw [havail] at hm
    have hbound := h4 m hm [incident.location] 0 hself (by simp)
    rw [calculate_eta_with_role_zero] at hbound
    rcases hp2 : pair.2 with _ | v
    · rw [hp2] at hbound
      simp [oLe] at hbound
    · rw [hp2] at hbound
      simp only [oLe, Int.cast_zero, zero_mul] at hbound
      rw [hp2] at h1
      rcases hp1 : pair.1 with _ | a
      · rw [hp1] at h1
        simp at h1
      · refine ⟨a, by rw [← hres1, hp1], ?_⟩
        intro hcn
        rw [hp1] at h1
        simp only [Option.map_some', Option.some.injEq] at h1
        obtain ⟨hastarA, hetaA, _, _⟩ := h2 a (by rw [hp1])
        obtain ⟨_, _, _, _, hcwalk, _⟩ := hazard_aware_astar_found hastarA
        have hdist : 0 ≤ a.distance := CWalk_nonneg hcn hcwalk
        have heta_nn : 0 ≤ a.eta_seconds := by
          rw [hetaA]
          exact calculate_eta_with_role_nonneg hdist a.staff_role.value
        have heta_np : (a.eta_seconds : ℝ) * priorityWeight incident.priority ≤ 0 := by
          rw [← h1]
          exact hbound
        have hwpos := priorityWeight_pos incident.priority
        have : (a.eta_seconds : ℝ) ≤ 0 := by
          by_contra hgt
          push_neg at hgt
          nlinarith
        have : a.eta_seconds ≤ 0 := by exact_mod_cast this
        omega

/-! ## Multi-destination analysis -/

theorem BWalk.cost_eqB {g : Graph} {hz : HazardMap} {s t : String} {c c' : ℝ}
    (h : BWalk g hz s t c) (he : c = c') : BWalk g hz s t c' :=
  he ▸ h

theorem BWalk.transB {g : Graph} {hz : HazardMap} {s u t : String} {c1 c2 : ℝ}
    (h1 : BWalk g hz s u c1) (h2 : BWalk g hz u t c2) : BWalk g hz s t (c1 + c2) := by
  induction h1 with
  | refl s => exact h2.cost_eqB (by ring)
  | cons hm hcl _ ih => exact (BWalk.cons hm hcl (ih h2)).cost_eqB (by ring)

theorem Reachable.transR {g : Graph} {hz : HazardMap} {s u t : String}
    (h1 : Reachable g hz s u) (h2 : Reachable g hz u t) : Reachable g hz s t := by
  obtain ⟨c1, hw1⟩ := h1
  obtain ⟨c2, hw2⟩ := h2
  exact ⟨c1 + c2, hw1.transB hw2⟩

/-- Every member of a usable chain is reachable from its head. -/
theorem chain_mem_reachable {g : Graph} {hz : HazardMap} :
    ∀ (p : List String), List.Chain' (openStep g hz) p →
    ∀ hd x, p.head? = some hd → x ∈ p → Reachable g hz hd x := by
  intro p
  induction p with
  | nil => intro _ hd x _ hx; exact absurd hx (List.not_mem_nil x)
  | cons z tl ih =>
    intro hchain hd x hh hx
    simp only [List.head?_cons, Option.some.injEq] at hh
    subst hh
    rcases List.mem_cons.mp hx with hx | hx
    · subst hx
      exact ⟨0, BWalk.refl x⟩
    · rcases tl with _ | ⟨y, tl'⟩
      · exact absurd hx (List.not_mem_nil x)
      · obtain ⟨⟨⟨w, hm⟩, hcl⟩, hchain'⟩ := List.chain'_cons.mp hchain
        have hstep : Reachable g hz z y := ⟨w + 0, BWalk.cons hm hcl (BWalk.refl y)⟩
        exact hstep.transR (ih hchain' y x rfl hx)

theorem getLast?_mem {α : Type} : ∀ (l : List α) (x : α), l.getLast? = some x → x ∈ l := by
  intro l
  induction l with
  | nil => intro x h; simp at h
  | cons a tl ih =>
    intro x h
    rcases tl with _ | ⟨b, tl'⟩
    · simp only [List.getLast?_singleton, Option.some.injEq] at h
      subst h
      exact List.mem_cons_self a []
    · rw [List.getLast?_cons_cons] at h
      exact List.mem_cons_of_mem a (ih x h)

/-- Gluing two usable chains at a shared endpoint (dropping the duplicated
first node of the second chain). -/
theorem chain'_glue {g : Graph} {hz : HazardMap} (l1 l2 : List String)
    (h1 : List.Chain' (openStep g hz) l1) (h2 : List.Chain' (openStep g hz) l2)
    (hlink : l1.getLast? = l2.head?) :
    List.Chain' (openStep g hz) (l1 ++ l2.drop 1) := by
  rcases l2 with _ | ⟨x, tl⟩
  · simpa using h1
  · simp only [List.drop_one, List.tail_cons]
    rw [List.chain'_append]
    refine ⟨h1, (List.chain'_cons'.mp h2).2, ?_⟩
    intro a ha b hb
    simp only [List.head?_cons, Option.mem_def, Option.some.injEq] at ha hlink
    rw [hlink] at ha
    have := (List.chain'_cons'.mp h2).1
    injection ha with ha'
    rw [← ha']
    exact this b hb

/-- What a successful inner scan of `multi_destination_route` guarantees
about its chosen destination. -/
def PickOK (g : Graph) (hz : HazardMap) (current : String) (fuel : ℕ)
    (dests : List String) (b : String × List String × ℝ) : Prop :=
  b.1 ∈ dests ∧ b.2.1 ≠ [] ∧
    hazard_aware_astar g current b.1 hz false fuel = some (some (b.2.1, b.2.2))

theorem mdrPick_spec (g : Graph) (hz : HazardMap) (current : String) (fuel : ℕ)
    (dests0 : List String) :
    ∀ (dests : List String), (∀ x ∈ dests, x ∈ dests0) →
    ∀ (best : Option (String × List String × ℝ)) (res : Option (String × List String × ℝ)),
    mdrPick g hz current fuel dests best = some res →
    (∀ b, best = some b → PickOK g hz current fuel dests0 b) →
    ∀ b, res = some b → PickOK g hz current fuel dests0 b := by
  intro dests
  induction dests with
  | nil =>
    intro _ best res h hok
    simp only [mdrPick] at h
    injection h with h'
    subst h'
    exact hok
  | cons d rest ih =>
    intro hsub best res h hok
    simp only [mdrPick] at h
    rcases hastar : hazard_aware_astar g current d hz false fuel with _ | rr
    · rw [hastar] at h
      simp at h
    · rw [hastar] at h
      rcases rr with _ | ⟨p, dist⟩
      · dsimp only at h
        exact ih (fun x hx => hsub x (List.mem_cons_of_mem d hx)) best res h hok
      · dsimp only at h
        split at h
        · rename_i hcond
          refine ih (fun x hx => hsub x (List.mem_cons_of_mem d hx)) _ res h ?_
          intro b hb
          injection hb with hb'
          rw [← hb']
          exact ⟨hsub d (List.mem_cons_self d rest), hcond.1, hastar⟩
        · exact ih (fun x hx => hsub x (List.mem_cons_of_mem d hx)) best res h hok

theorem mdrLoop_spec (g : Graph) (hz : HazardMap) (fuel : ℕ) :
    ∀ (ofuel : ℕ) (current : String) (remaining acc : List String) (total : ℝ)
      (p : List String) (dist : ℝ) (hd : String),
    mdrLoop g hz fuel ofuel current remaining acc total = some (some (p, dist)) →
    acc ≠ [] → acc.head? = some hd → acc.getLast? = some current →
    List.Chain' (openStep g hz) acc →
    (∀ x ∈ remaining, x ∈ p) ∧ (∀ x ∈ acc, x ∈ p) ∧ p.head? = some hd ∧
      List.Chain' (openStep g hz) p := by
  intro ofuel
  induction ofuel with
  | zero =>
    intro current remaining acc total p dist hd h
    simp [mdrLoop] at h
  | succ ofuel ih =>
    intro current remaining acc total p dist hd h hne hhd hlast hchain
    rcases remaining with _ | ⟨r0, rrest⟩
    · simp only [mdrLoop] at h
      injection h with h'
      injection h' with h''
      have hp : acc = p := congrArg Prod.fst h''
      subst hp
      exact ⟨fun x hx => absurd hx (List.not_mem_nil x), fun x hx => hx, hhd, hchain⟩
    · simp only [mdrLoop] at h
      rcases hpick : mdrPick g hz current fuel (r0 :: rrest) none with _ | rr
      · rw [hpick] at h
        simp at h
      · rw [hpick] at h
        rcases rr with _ | ⟨d, p0, dist0⟩
        · dsimp only at h
          simp at h
        · dsimp only at h
          obtain ⟨hdmem, hp0ne, hastar0⟩ :=
            mdrPick_spec g hz current fuel (r0 :: rrest) (r0 :: rrest)
              (fun x hx => hx) none _ hpick (by intro b hb; simp at hb) _ rfl
          obtain ⟨_, hp0hd, hp0last, hp0chain, _⟩ := hazard_aware_astar_found hastar0
          -- the glued accumulator
          have hacc'ne : acc ++ p0.drop 1 ≠ [] := by
            intro hcontra
            exact hne (List.append_eq_nil.mp hcontra).1
          have hacc'hd : (acc ++ p0.drop 1).head? = some hd := by
            rcases acc with _ | ⟨a0, atl⟩
            · exact absurd rfl hne
            · simpa using hhd
          have hacc'chain : List.Chain' (openStep g hz) (acc ++ p0.drop 1) :=
            chain'_glue acc p0 hchain hp0chain (by rw [hlast, hp0hd])
          have hacc'last : (acc ++ p0.drop 1).getLast? = some d := by
            rcases p0 with _ | ⟨q0, qtl⟩
            · exact absurd rfl hp0ne
            · rcases qtl with _ | ⟨q1, qtl'⟩
              · -- singleton leg: destination equals the current position
                simp only [List.getLast?_singleton, Option.some.injEq] at hp0last
                simp only [List.head?_cons, Option.some.injEq] at hp0hd
                simp only [List.drop_one, List.tail_cons, List.append_nil]
                rw [hlast, ← hp0hd, hp0last]
              · simp only [List.drop_one, List.tail_cons]
                rw [List.getLast?_append_of_ne_nil acc (by simp)]
                rw [List.getLast?_cons_cons] at hp0last
                exact hp0last
          have hdmem' : d ∈ acc ++ p0.drop 1 :=
            getLast?_mem _ d hacc'last
          obtain ⟨c1, c2, c3, c4⟩ := ih d (List.erase (r0 :: rrest) d) (acc ++ p0.drop 1)
            (total + dist0) p dist hd h hacc'ne hacc'hd hacc'last hacc'chain
          refine ⟨?_, fun x hx => c2 x (List.mem_append_left _ hx), c3, c4⟩
          intro x hx
          by_cases hxd : x = d
          · subst hxd
            exact c2 x hdmem'
          · exact c1 x ((List.mem_erase_of_ne hxd).mpr hx)

/-- Claim C5: a completed `multiDestination` run that returns a path has
visited every requested destination (it never silently drops one), the
returned path is a usable walk starting at `start`, and every destination
is then reachable from `start`; consequently, whenever some destination is
unreachable from `start`, a completed run can only return the
`(None, +inf)` failure. -/
theorem claim_C5 (g : Graph) (hz : HazardMap) (start : String) (dests : List String)
    (fuel : ℕ) :
    (∀ p dist, multi_destination_route g start dests hz fuel = some (some (p, dist)) →
      (∀ d ∈ dests, d ∈ p) ∧ p.head? = some start ∧
        List.Chain' (openStep g hz) p ∧ ∀ d ∈ dests, Reachable g hz start d) ∧
    (∀ d ∈ dests, ¬Reachable g hz start d →
      ∀ r, multi_destination_route g start dests hz fuel = some r → r = none) := by
  have hmain : ∀ p dist,
      multi_destination_route g start dests hz fuel = some (some (p, dist)) →
      (∀ d ∈ dests, d ∈ p) ∧ p.head? = some start ∧
        List.Chain' (openStep g hz) p ∧ ∀ d ∈ dests, Reachable g hz start d := by
    intro p dist h
    rcases dests with _ | ⟨d0, drest⟩
    · simp only [multi_destination_route] at h
      injection h with h'
      injection h' with h''
      have hp : [start] = p := congrArg Prod.fst h''
      subst hp
      exact ⟨fun d hd => absurd hd (List.not_mem_nil d), by simp,
        List.chain'_singleton start, fun d hd => absurd hd (List.not_mem_nil d)⟩
    · simp only [multi_destination_route] at h
      obtain ⟨c1, _, c3, c4⟩ :=
        mdrLoop_spec g hz fuel ((d0 :: drest).dedup.length + 1) start
          (d0 :: drest).dedup [start] 0 p dist start h (by simp) (by simp) (by simp)
          (List.chain'_singleton start)
      have hcover : ∀ d ∈ d0 :: drest, d ∈ p := by
        intro d hd
        exact c1 d (List.mem_dedup.mpr hd)
      exact ⟨hcover, c3, c4, fun d hd =>
        chain_mem_reachable p c4 start d c3 (hcover d hd)⟩
  refine ⟨hmain, ?_⟩
  intro d hd hunreach r hr
  rcases r with _ | ⟨p, dist⟩
  · rfl
  · exfalso
    obtain ⟨_, _, _, hreach⟩ := hmain p dist hr
    exact hunreach (hreach d hd)

/-! ## A* optimality under an admissible heuristic -/

theorem heuristic_self (g : Graph) (x : String) : g.heuristic x x = 0 := by
  unfold Graph.heuristic
  rcases g.get_node x with _ | n
  · rfl
  · simp

/-- With empty hazard dictionaries, the penalized edge cost is the base
weight. -/
theorem edge_cost_zerohaz {hz : HazardMap} (hzn : hz.node_hazards = [])
    (hze : hz.edge_hazards = []) (ac : Bool) (u v : String) (w : ℝ) :
    edge_cost hz ac u v w = w := by
  unfold edge_cost HazardMap.get_edge_penalty HazardMap.get_node_penalty
  rw [hzn, hze]
  simp [alook]

theorem CWalk_iff_BWalk_zerohaz {g : Graph} {hz : HazardMap}
    (hzn : hz.node_hazards = []) (hze : hz.edge_hazards = []) (ac : Bool)
    {s t : String} {c : ℝ} :
    CWalk g hz ac s t c ↔ BWalk g hz s t c := by
  constructor
  · intro h
    induction h with
    | refl s => exact BWalk.refl s
    | cons hm hcl _ ih =>
      have := BWalk.cons hm hcl ih
      rw [edge_cost_zerohaz hzn hze]
      exact this
  · intro h
    induction h with
    | refl s => exact CWalk.refl s
    | cons hm hcl _ ih =>
      have := CWalk.cons hm hcl ih
      rw [edge_cost_zerohaz hzn hze] at this
      exact this

theorem BWalk_nonneg {g : Graph} {hz : HazardMap}
    (hw : ∀ u v w, (v, w) ∈ g.get_neighbors u → 0 ≤ w) {s t : String} {c : ℝ}
    (h : BWalk g hz s t c) : 0 ≤ c := by
  induction h with
  | refl s => exact le_refl 0
  | cons hm _ _ ih =>
    have := hw _ _ _ hm
    linarith

theorem CWalkL_to_CWalk {g : Graph} {hz : HazardMap} {ac : Bool} :
    ∀ {p : List String} {c : ℝ}, CWalkL g hz ac p c →
    ∀ {s t : String}, p.head? = some s → p.getLast? = some t → CWalk g hz ac s t c := by
  intro p c h
  induction h with
  | single x =>
    intro s t hs ht
    simp only [List.head?_cons, Option.some.injEq] at hs
    simp only [List.getLast?_singleton, Option.some.injEq] at ht
    subst hs
    subst ht
    exact CWalk.refl x
  | cons hm hcl _ ih =>
    intro s t hs ht
    simp only [List.head?_cons, Option.some.injEq] at hs
    subst hs
    rw [List.getLast?_cons_cons] at ht
    exact CWalk.cons hm hcl (ih rfl ht)

/-- At the moment the goal is popped, its `g_score` is at most the cost of
every penalized walk from `start` to `goal` — provided edge costs are
nonnegative and the heuristic never overestimates remaining walk costs. -/
theorem goal_pop_le {g : Graph} {hz : HazardMap} {ac : Bool} {start goal : String}
    {st : AState} (hinv : AInv g hz ac start goal st) (hcn : CostNonneg g hz ac)
    (hadm : ∀ u c, CWalk g hz ac u goal c → g.heuristic u goal ≤ c)
    (hpick : pickMin st.fScore st.openList = some goal)
    {gv : ℝ} (hgv : alook goal st.gScore = some gv) :
    ∀ c, CWalk g hz ac start goal c → gv ≤ c := by
  have haux : ∀ (u : String) (rest : ℝ), CWalk g hz ac u goal rest →
      ∀ gpre : ℝ, (∃ gu, alook u st.gScore = some gu ∧ gu ≤ gpre) →
      gv ≤ gpre + rest := by
    intro u rest hw
    induction hw with
    | refl x =>
      rintro gpre ⟨gu, hgu, hle⟩
      rw [hgv] at hgu
      injection hgu with hgu'
      linarith
    | cons hm hcl hrest ih =>
      rename_i u' v' t' w' c'
      rintro gpre ⟨gu, hgu, hle⟩
      by_cases huo : u' ∈ st.openList
      · -- the frontier node bounds the goal's f-score from above
        have hmin := pickMin_min hpick u' huo
        have hfg : alook t' st.fScore = some (gv + g.heuristic t' t') := by
          rw [hinv.fSync t', hgv]
          rfl
        have hfu : alook u' st.fScore = some (gu + g.heuristic u' t') := by
          rw [hinv.fSync u', hgu]
          rfl
        rw [hfg, hfu] at hmin
        simp only [oLe] at hmin
        rw [heuristic_self] at hmin
        have hadm' : g.heuristic u' t' ≤ edge_cost hz ac u' v' w' + c' :=
          hadm u' _ (CWalk.cons hm hcl hrest)
        linarith
      · -- settled node: its out-edge is relaxed, walk down it
        obtain ⟨gvv, hgvv, hlev⟩ := hinv.NR u' gu hgu huo v' w' hm hcl
        have := ih hinv hadm hpick hgv (gpre + edge_cost hz ac u' v' w')
          ⟨gvv, hgvv, by linarith⟩
        linarith
  intro c hw
  obtain ⟨gs, hgs, hgs0⟩ := hinv.startLe
  have hgs_nn : 0 ≤ gs := CWalk_nonneg hcn (hinv.gReal start gs hgs)
  have := haux start c hw 0 ⟨gs, hgs, by linarith⟩
  linarith

/-- Along the whole loop: a returned cost under-approximates every penalized
walk cost (A* optimality with an admissible heuristic and nonnegative
costs). -/
theorem astarLoop_optimal {g : Graph} {hz : HazardMap} {ac : Bool}
    {start goal : String} (hcn : CostNonneg g hz ac)
    (hadm : ∀ u c, CWalk g hz ac u goal c → g.heuristic u goal ≤ c) :
    ∀ (fuel : ℕ) (st : AState), AInv g hz ac start goal st →
    ∀ p c, astarLoop g hz goal ac fuel st = some (some (p, c)) →
    ∀ c', CWalk g hz ac start goal c' → c ≤ c' := by
  intro fuel
  induction fuel with
  | zero =>
    intro st _ p c h
    simp [astarLoop] at h
  | succ fuel ih =>
    intro st hinv p c h
    rcases hpick : pickMin st.fScore st.openList with _ | current
    · simp only [astarLoop, hpick] at h
      exact absurd h (by simp)
    · by_cases hgoal : current = goal
      · subst hgoal
        have hgv : (alook current st.gScore).isSome :=
          hinv.openSub current (pickMin_mem hpick)
        obtain ⟨gv, hgvv⟩ := Option.isSome_iff_exists.mp hgv
        rcases hrec : reconstruct_path st.cameFrom current with _ | p0
        · simp [astarLoop, hpick, hgvv, hrec] at h
        · simp only [astarLoop, hpick, hgvv, hrec] at h
          rw [if_pos trivial] at h
          injection h with h'
          injection h' with h''
          have hc : gv = c := congrArg Prod.snd h''
          subst hc
          exact goal_pop_le hinv hcn hadm hpick hgvv
      · have hnext := astar_iter_inv g hz ac start goal current st hinv
          (pickMin_mem hpick) hgoal
        have hstep : astarLoop g hz goal ac (fuel + 1) st =
            astarLoop g hz goal ac fuel
              (relaxAll g hz ac goal current (g.get_neighbors current)
                { st with openList := st.openList.erase current }) := by
          simp only [astarLoop, hpick, if_neg hgoal]
        rw [hstep] at h
        exact ih _ hnext p c h

/-- Claim C2 (amended): with zero hazards and nonnegative edge weights, and
under the additional hypothesis that the heuristic is admissible for the
goal (it never exceeds the cost of any remaining walk — this does NOT hold
for all graphs, see the counterexample), a completed `findPath` run between
present nodes with a reachable goal returns a path realizing exactly the
true shortest-path cost over base weights restricted to non-closed edges. -/
theorem claim_C2 (g : Graph) (hz : HazardMap) (ac : Bool) (start goal : String)
    (fuel : ℕ) (hzn : hz.node_hazards = []) (hze : hz.edge_hazards = [])
    (hw : ∀ u v w, (v, w) ∈ g.get_neighbors u → 0 ≤ w)
    (hadm : ∀ u c, BWalk g hz u goal c → g.heuristic u goal ≤ c)
    (hs : (g.get_node start).isSome) (ht : (g.get_node goal).isSome)
    (hreach : Reachable g hz start goal)
    (r : Option (List String × ℝ))
    (hr : hazard_aware_astar g start goal hz ac fuel = some r) :
    ∃ p c, r = some (p, c) ∧ IsShortestCost g hz start goal c ∧
      CWalkL g hz ac p c ∧ p.head? = some start ∧ p.getLast? = some goal := by
  have hcn : CostNonneg g hz ac := by
    intro u v w hm
    rw [edge_cost_zerohaz hzn hze]
    exact hw u v w hm
  have hadm' : ∀ u c, CWalk g hz ac u goal c → g.heuristic u goal ≤ c := by
    intro u c hwalk
    exact hadm u c ((CWalk_iff_BWalk_zerohaz hzn hze ac).mp hwalk)
  rcases r with _ | ⟨p, c⟩
  · exact absurd hreach (hazard_aware_astar_none hs ht hr)
  · obtain ⟨hne, hhead, hlast, hchain, hcwalk, cl, gs, hwalkl, hgs0, hgsreal, hlecl⟩ :=
      hazard_aware_astar_found hr
    have hguard : ¬((g.get_node start).isNone ∨ (g.get_node goal).isNone) := by
      rcases hg : g.get_node start with _ | n1
      · rw [hg] at hs; simp at hs
      · rcases hg2 : g.get_node goal with _ | n2
        · rw [hg2] at ht; simp at ht
        · simp
    have hr' : astarLoop g hz goal ac fuel
        { openList := [start], cameFrom := [], gScore := [(start, 0)],
          fScore := [(start, g.heuristic start goal)] } = some (some (p, c)) := by
      rw [hazard_aware_astar, if_neg hguard] at hr
      exact hr
    have hopt : ∀ c', CWalk g hz ac start goal c' → c ≤ c' :=
      astarLoop_optimal hcn hadm' fuel _ (AInv_init g hz ac start goal) p c hr'
    have hgs_nn : 0 ≤ gs := CWalk_nonneg hcn hgsreal
    have hcwalk_cl : CWalk g hz ac start goal cl := CWalkL_to_CWalk hwalkl hhead hlast
    have hcl_eq : cl = c :=
      le_antisymm (by linarith) (hopt cl hcwalk_cl)
    refine ⟨p, c, rfl,
      ⟨(CWalk_iff_BWalk_zerohaz hzn hze ac).mp hcwalk, ?_⟩,
      hwalkl.cost_eqL hcl_eq, hhead, hlast⟩
    intro c' hb
    exact hopt c' ((CWalk_iff_BWalk_zerohaz hzn hze ac).mpr hb)

/-! ## Concrete evaluation world -/

/-- A square test stadium `A–B–C–D–A` (each side weight 10, with the long
side `C–D` of weight 30), all nodes on one level at one point so the
heuristic vanishes. -/
def sqG : Graph :=
  ⟨[("A", ⟨"A", 0, 0, 0, "normal"⟩), ("B", ⟨"B", 0, 0, 0, "normal"⟩),
    ("C", ⟨"C", 0, 0, 0, "normal"⟩), ("D", ⟨"D", 0, 0, 0, "normal"⟩)],
   [("A", [("B", 10), ("D", 10)]),
    ("B", [("A", 10), ("C", 10)]),
    ("C", [("B", 10), ("D", 30)]),
    ("D", [("A", 10), ("C", 30)])]⟩

/-- The empty hazard overlay used by the concrete runs. -/
def hz0 : HazardMap := HazardMap.init

theorem alook_some_mem {κ α : Type} [DecidableEq κ] {k : κ} {v : α} :
    ∀ {l : List (κ × α)}, alook k l = some v → (k, v) ∈ l := by
  intro l
  induction l with
  | nil => intro h; simp [alook] at h
  | cons hd tl ih =>
    intro h
    obtain ⟨k', v'⟩ := hd
    simp only [alook] at h
    by_cases hk : k' = k
    · rw [if_pos hk] at h
      injection h with h'
      subst hk
      subst h'
      exact List.mem_cons_self _ _
    · rw [if_neg hk] at h
      exact List.mem_cons_of_mem _ (ih h)

theorem sqG_nodes_flat : ∀ (x : String) (n : Node), sqG.get_node x = some n →
    n.x = 0 ∧ n.y = 0 ∧ n.level = 0 := by
  intro x n h
  have hmem := alook_some_mem h
  simp only [sqG, List.mem_cons, List.not_mem_nil, or_false, Prod.mk.injEq] at hmem
  rcases hmem with ⟨_, rfl⟩ | ⟨_, rfl⟩ | ⟨_, rfl⟩ | ⟨_, rfl⟩ <;> exact ⟨rfl, rfl, rfl⟩

theorem sqG_heuristic (x y : String) : sqG.heuristic x y = 0 := by
  unfold Graph.heuristic
  rcases h1 : sqG.get_node x with _ | n1
  · rfl
  rcases h2 : sqG.get_node y with _ | n2
  · rfl
  obtain ⟨hx1, hy1, hl1⟩ := sqG_nodes_flat x n1 h1
  obtain ⟨hx2, hy2, hl2⟩ := sqG_nodes_flat y n2 h2
  simp [hx1, hy1, hl1, hx2, hy2, hl2]

theorem astar_guard_ne {g : Graph} {s t : String} (hs : (g.get_node s).isSome)
    (ht : (g.get_node t).isSome) :
    ¬((g.get_node s).isNone ∨ (g.get_node t).isNone) := by
  rintro (h | h) <;> rw [Option.isNone_iff_eq_none] at h
  · rw [h] at hs
    simp at hs
  · rw [h] at ht
    simp at ht

theorem sqG_nb_A : sqG.get_neighbors "A" = [("B", 10), ("D", 10)] := by
  norm_num +decide [sqG, Graph.get_neighbors, alook]

theorem sqG_nb_B : sqG.get_neighbors "B" = [("A", 10), ("C", 10)] := by
  norm_num +decide [sqG, Graph.get_neighbors, alook]

theorem sqG_nb_C : sqG.get_neighbors "C" = [("B", 10), ("D", 30)] := by
  norm_num +decide [sqG, Graph.get_neighbors, alook]

theorem sqG_nb_D : sqG.get_neighbors "D" = [("A", 10), ("C", 30)] := by
  norm_num +decide [sqG, Graph.get_neighbors, alook]

theorem sqG_node_isSome :
    (sqG.get_node "A").isSome ∧ (sqG.get_node "B").isSome ∧
      (sqG.get_node "C").isSome ∧ (sqG.get_node "D").isSome := by
  refine ⟨?_, ?_, ?_, ?_⟩ <;> norm_num +decide [sqG, Graph.get_node, alook]

/-! ## Priority independence of dispatch -/

/-- The priority-independent payload of an assignment: everything except
the copied incident priority. -/
def stripA (a : ResponderAssignment) : String × StaffRole × String × List String × ℝ × ℤ :=
  (a.staff_id, a.staff_role, a.current_position, a.path, a.distance, a.eta_seconds)

theorem fnrLoop_rel (g : Graph) (hz : HazardMap) (i1 i2 : EmergencyIncident)
    (hloc : i1.location = i2.location) (w1 w2 : ℝ) (hw1 : 0 < w1) (hw2 : 0 < w2)
    (fuel : ℕ) :
    ∀ (staff : List StaffMember) (best1 best2 : Option ResponderAssignment)
      (bw1 bw2 : Option ℝ),
    Option.map stripA best1 = Option.map stripA best2 →
    bw1 = best1.map (fun a => (a.eta_seconds : ℝ) * w1) →
    bw2 = best2.map (fun a => (a.eta_seconds : ℝ) * w2) →
    ∀ res1, fnrLoop g hz i1 w1 fuel staff best1 bw1 = some res1 →
    ∃ res2, fnrLoop g hz i2 w2 fuel staff best2 bw2 = some res2 ∧
      Option.map stripA res1.1 = Option.map stripA res2.1 := by
  intro staff
  induction staff with
  | nil =>
    intro best1 best2 bw1 bw2 hb _ _ res1 h1
    simp only [fnrLoop] at h1
    injection h1 with h1'
    subst h1'
    exact ⟨(best2, bw2), rfl, hb⟩
  | cons s rest ih =>
    intro best1 best2 bw1 bw2 hb hbw1 hbw2 res1 h1
    simp only [fnrLoop] at h1 ⊢
    rw [← hloc]
    rcases hastar : hazard_aware_astar g s.current_position i1.location hz true fuel
      with _ | rr
    · rw [hastar] at h1
      simp at h1
    · rw [hastar] at h1
      rcases rr with _ | ⟨p, d⟩
      · dsimp only at h1 ⊢
        exact ih best1 best2 bw1 bw2 hb hbw1 hbw2 res1 h1
      · dsimp only at h1 ⊢
        by_cases hpe : p = []
        · rw [if_pos hpe] at h1 ⊢
          exact ih best1 best2 bw1 bw2 hb hbw1 hbw2 res1 h1
        · rw [if_neg hpe] at h1 ⊢
          have hcmp : oLt (some ((calculate_eta_with_role d s.role.value : ℝ) * w1)) bw1 ↔
              oLt (some ((calculate_eta_with_role d s.role.value : ℝ) * w2)) bw2 := by
            rcases best1 with _ | a1 <;> rcases best2 with _ | a2
            · subst hbw1; subst hbw2; simp [oLt]
            · simp at hb
            · simp at hb
            · simp only [Option.map_some', Option.some.injEq] at hb
              have heta : a1.eta_seconds = a2.eta_seconds := by
                have := congrArg (fun x => x.2.2.2.2.2) hb
                exact this
              subst hbw1
              subst hbw2
              simp only [Option.map_some', oLt, heta]
              constructor
              · intro hlt
                have h1' := (mul_lt_mul_right hw1).mp hlt
                exact (mul_lt_mul_right hw2).mpr h1'
              · intro hlt
                have h1' := (mul_lt_mul_right hw2).mp hlt
                exact (mul_lt_mul_right hw1).mpr h1'
          by_cases hlt : oLt (some ((calculate_eta_with_role d s.role.value : ℝ) * w1)) bw1
          · rw [if_pos hlt] at h1
            rw [if_pos (hcmp.mp hlt)]
            exact ih _ _ _ _ (by simp [stripA]) rfl rfl res1 h1
          · rw [if_neg hlt] at h1
            rw [if_neg (fun hc => hlt (hcmp.mpr hc))]
            exact ih best1 best2 bw1 bw2 hb hbw1 hbw2 res1 h1

/-- Claim C4 (amended): the winner of `assignNearest` never depends on the
incident's priority: for two incidents at the same location requiring the
same role, completed runs select the same staff member with the same path,
distance and ETA — only the copied `priority` field differs.  The priority
weight scales every candidate's weighted ETA by the same positive factor,
so it can never flip the comparison. -/
theorem claim_C4 (g : Graph) (hz : HazardMap) (tracker : StaffTracker) (fuel : ℕ)
    (i1 i2 : EmergencyIncident) (hloc : i1.location = i2.location)
    (hrole : i1.required_role = i2.required_role)
    (res1 : Option ResponderAssignment)
    (h1 : find_nearest_responder g i1 tracker hz fuel = some res1) :
    ∃ res2, find_nearest_responder g i2 tracker hz fuel = some res2 ∧
      Option.map stripA res1 = Option.map stripA res2 := by
  rw [find_nearest_responder] at h1 ⊢
  rw [← hrole]
  rcases havail : tracker.get_available_by_role i1.required_role with _ | ⟨a0, arest⟩
  · rw [havail] at h1
    injection h1 with h1'
    exact ⟨none, rfl, by rw [← h1']⟩
  · rw [havail] at h1
    obtain ⟨pair1, hpair1, hres1⟩ := Option.map_eq_some'.mp h1
    obtain ⟨pair2, hpair2, hrel⟩ :=
      fnrLoop_rel g hz i1 i2 hloc (priorityWeight i1.priority)
        (priorityWeight i2.priority) (priorityWeight_pos _) (priorityWeight_pos _)
        fuel (a0 :: arest) none none none none rfl rfl rfl pair1 hpair1
    refine ⟨pair2.1, ?_, ?_⟩
    · rw [hpair2]
      rfl
    · rw [← hres1]
      exact hrel

/-! ## Multiple-responder analysis -/

theorem fmrBuild_spec (g : Graph) (hz : HazardMap) (i : EmergencyIncident) (fuel : ℕ) :
    ∀ (staff : List StaffMember) (res : List ResponderAssignment),
    fmrBuild g hz i fuel staff = some res →
    ∀ a ∈ res, ∃ s ∈ staff, a.staff_id = s.id ∧ a.staff_role = s.role ∧
      a.current_position = s.current_position ∧
      a.eta_seconds = calculate_eta_with_role a.distance s.role.value ∧
      hazard_aware_astar g s.current_position i.location hz true fuel =
        some (some (a.path, a.distance)) ∧
      a.path ≠ [] ∧ a.priority = i.priority ∧ a.incident_location = i.location := by
  intro staff
  induction staff with
  | nil =>
    intro res h a ha
    simp only [fmrBuild] at h
    injection h with h'
    subst h'
    exact absurd ha (List.not_mem_nil a)
  | cons s rest ih =>
    intro res h a ha
    simp only [fmrBuild] at h
    rcases hastar : hazard_aware_astar g s.current_position i.location hz true fuel
      with _ | rr
    · rw [hastar] at h
      simp at h
    · rw [hastar] at h
      rcases rr with _ | ⟨p, d⟩
      · dsimp only at h
        obtain ⟨s', hs', hrest⟩ := ih res h a ha
        exact ⟨s', List.mem_cons_of_mem s hs', hrest⟩
      · dsimp only at h
        by_cases hpe : p = []
        · rw [if_pos hpe] at h
          obtain ⟨s', hs', hrest⟩ := ih res h a ha
          exact ⟨s', List.mem_cons_of_mem s hs', hrest⟩
        · rw [if_neg hpe] at h
          obtain ⟨res', hres', hcons⟩ := Option.map_eq_some'.mp h
          subst hcons
          rcases List.mem_cons.mp ha with ha | ha
          · subst ha
            exact ⟨s, List.mem_cons_self s rest,
              rfl, rfl, rfl, rfl, hastar, hpe, rfl, rfl⟩
          · obtain ⟨s', hs', hrest⟩ := ih res' hres' a ha
            exact ⟨s', List.mem_cons_of_mem s hs', hrest⟩

theorem fmrBuild_rel (g : Graph) (hz : HazardMap) (i1 i2 : EmergencyIncident)
    (hloc : i1.location = i2.location) (fuel : ℕ) :
    ∀ (staff : List StaffMember) (res1 : List ResponderAssignment),
    fmrBuild g hz i1 fuel staff = some res1 →
    ∃ res2, fmrBuild g hz i2 fuel staff = some res2 ∧
      res1.map stripA = res2.map stripA := by
  intro staff
  induction staff with
  | nil =>
    intro res1 h
    simp only [fmrBuild] at h ⊢
    injection h with h'
    subst h'
    exact ⟨[], rfl, rfl⟩
  | cons s rest ih =>
    intro res1 h
    simp only [fmrBuild] at h ⊢
    rw [← hloc]
    rcases hastar : hazard_aware_astar g s.current_position i1.location hz true fuel
      with _ | rr
    · rw [hastar] at h
      simp at h
    · rw [hastar] at h
      rcases rr with _ | ⟨p, d⟩
      · dsimp only at h ⊢
        exact ih res1 h
      · dsimp only at h ⊢
        by_cases hpe : p = []
        · rw [if_pos hpe] at h ⊢
          exact ih res1 h
        · rw [if_neg hpe] at h ⊢
          obtain ⟨res', hres', hcons⟩ := Option.map_eq_some'.mp h
          subst hcons
          obtain ⟨res2', hres2', hmap⟩ := ih res' hres'
          refine ⟨_, by rw [hres2']; rfl, ?_⟩
          simp only [List.map_cons, hmap, stripA]

theorem orderedInsert_rel :
    ∀ (l1 l2 : List ResponderAssignment) (a1 a2 : ResponderAssignment),
    stripA a1 = stripA a2 → l1.map stripA = l2.map stripA →
    (l1.orderedInsert etaLe a1).map stripA = (l2.orderedInsert etaLe a2).map stripA := by
  intro l1
  induction l1 with
  | nil =>
    intro l2 a1 a2 ha hl
    rcases l2 with _ | ⟨b2, t2⟩
    · simp only [List.orderedInsert, List.map_cons, List.map_nil, ha]
    · simp at hl
  | cons b1 t1 ih =>
    intro l2 a1 a2 ha hl
    rcases l2 with _ | ⟨b2, t2⟩
    · simp at hl
    · simp only [List.map_cons, List.cons.injEq] at hl
      obtain ⟨hb, ht⟩ := hl
      have heta_a : a1.eta_seconds = a2.eta_seconds :=
        congrArg (fun x => x.2.2.2.2.2) ha
      have heta_b : b1.eta_seconds = b2.eta_seconds :=
        congrArg (fun x => x.2.2.2.2.2) hb
      simp only [List.orderedInsert]
      by_cases hc : etaLe a1 b1
      · rw [if_pos hc, if_pos (by rw [etaLe] at hc ⊢; rw [← heta_a, ← heta_b]; exact hc)]
        simp only [List.map_cons, ha, hb, ht]
      · rw [if_neg hc, if_neg (by rw [etaLe] at hc ⊢; rw [← heta_a, ← heta_b]; exact hc)]
        simp only [List.map_cons, hb]
        rw [ih t2 a1 a2 ha ht]

theorem sortByEta_rel :
    ∀ (l1 l2 : List ResponderAssignment), l1.map stripA = l2.map stripA →
    (sortByEta l1).map stripA = (sortByEta l2).map stripA := by
  intro l1
  induction l1 with
  | nil =>
    intro l2 h
    rcases l2 with _ | ⟨b, t⟩
    · rfl
    · simp at h
  | cons a t ih =>
    intro l2 h
    rcases l2 with _ | ⟨b, t2⟩
    · simp at h
    · simp only [List.map_cons, List.cons.injEq] at h
      obtain ⟨hab, ht⟩ := h
      simp only [sortByEta, List.insertionSort]
      exact orderedInsert_rel _ _ a b hab (ih t2 ht)

/-- Claim C8: a completed `assignMultiple` run returns at most `k`
assignments, sorted by raw (unweighted) `etaSeconds` ascending, each drawn
from the available staff of the required role with a completed
crowd-avoiding route to the incident; and the selection is independent of
the incident's priority — two incidents at the same location requiring the
same role produce the same staff, paths, distances and ETAs in the same
order, whatever their priorities. -/
theorem claim_C8 (g : Graph) (hz : HazardMap) (tracker : StaffTracker)
    (num : ℕ) (fuel : ℕ) (i1 : EmergencyIncident) :
    (∀ res, find_multiple_responders g i1 tracker hz num fuel = some res →
      res.length ≤ num ∧ List.Sorted etaLe res ∧
      (∀ a ∈ res, ∃ s ∈ tracker.get_available_by_role i1.required_role,
        a.staff_id = s.id ∧ a.staff_role = s.role ∧
        a.current_position = s.current_position ∧
        a.eta_seconds = calculate_eta_with_role a.distance s.role.value ∧
        hazard_aware_astar g s.current_position i1.location hz true fuel =
          some (some (a.path, a.distance)) ∧ a.path ≠ [])) ∧
    (∀ i2 : EmergencyIncident, i1.location = i2.location →
      i1.required_role = i2.required_role →
      ∀ res1, find_multiple_responders g i1 tracker hz num fuel = some res1 →
      ∃ res2, find_multiple_responders g i2 tracker hz num fuel = some res2 ∧
        res1.map stripA = res2.map stripA) := by
  constructor
  · intro res h
    rw [find_multiple_responders] at h
    rcases havail : tracker.get_available_by_role i1.required_role with _ | ⟨a0, arest⟩
    · rw [havail] at h
      injection h with h'
      subst h'
      exact ⟨by simp, List.sorted_nil, fun a ha => absurd ha (List.not_mem_nil a)⟩
    · rw [havail] at h
      obtain ⟨built, hbuilt, hres⟩ := Option.map_eq_some'.mp h
      subst hres
      refine ⟨List.length_take_le num _, ?_, ?_⟩
      · exact (List.sorted_insertionSort etaLe built).sublist (List.take_sublist _ _)
      · intro a ha
        have hmem : a ∈ sortByEta built := List.mem_of_mem_take ha
        have hmem' : a ∈ built := (List.perm_insertionSort etaLe built).mem_iff.mp hmem
        obtain ⟨s, hs, h1, h2, h3, h4, h5, h6, _, _⟩ :=
          fmrBuild_spec g hz i1 fuel (a0 :: arest) built hbuilt a hmem'
        exact ⟨s, hs, h1, h2, h3, h4, h5, h6⟩
  · intro i2 hloc hrole res1 h1
    rw [find_multiple_responders] at h1 ⊢
    rw [← hrole]
    rcases havail : tracker.get_available_by_role i1.required_role with _ | ⟨a0, arest⟩
    · rw [havail] at h1
      injection h1 with h1'
      subst h1'
      exact ⟨[], rfl, rfl⟩
    · rw [havail] at h1
      obtain ⟨built1, hbuilt1, hres1⟩ := Option.map_eq_some'.mp h1
      subst hres1
      obtain ⟨built2, hbuilt2, hmap⟩ :=
        fmrBuild_rel g hz i1 i2 hloc fuel (a0 :: arest) built1 hbuilt1
      refine ⟨(sortByEta built2).take num, by rw [hbuilt2]; rfl, ?_⟩
      rw [List.map_take, List.map_take]
      rw [sortByEta_rel built1 built2 hmap]

set_option maxHeartbeats 2000000 in
theorem eval_astar_AC :
    hazard_aware_astar sqG "A" "C" hz0 false (0+1+1+1+1+1) =
      some (some (["A", "B", "C"], 20)) := by
  rw [hazard_aware_astar,
    if_neg (astar_guard_ne sqG_node_isSome.1 sqG_node_isSome.2.2.1)]
  norm_num +decide [astarLoop, pickMin, pickMinAux, relaxAll, relaxStep,
    relaxUpd, alook, updA, oLt, edge_cost, HazardMap.get_edge_penalty,
    HazardMap.get_node_penalty, HazardMap.has_fire,
    sqG_nb_A, sqG_nb_B, sqG_nb_C, sqG_nb_D,
    sqG_heuristic, HazardMap.is_closed, HazardMap.init, hz0,
    reconstruct_path, reconstructGo, penSum, List.erase]

set_option maxHeartbeats 2000000 in
theorem eval_astar_AB :
    hazard_aware_astar sqG "A" "B" hz0 false (0+1+1+1+1+1) =
      some (some (["A", "B"], 10)) := by
  rw [hazard_aware_astar,
    if_neg (astar_guard_ne sqG_node_isSome.1 sqG_node_isSome.2.1)]
  norm_num +decide [astarLoop, pickMin, pickMinAux, relaxAll, relaxStep,
    relaxUpd, alook, updA, oLt, edge_cost, HazardMap.get_edge_penalty,
    HazardMap.get_node_penalty, HazardMap.has_fire,
    sqG_nb_A, sqG_nb_B, sqG_nb_C, sqG_nb_D,
    sqG_heuristic, HazardMap.is_closed, HazardMap.init, hz0,
    reconstruct_path, reconstructGo, penSum, List.erase]

set_option maxHeartbeats 2000000 in
theorem eval_astar_BC :
    hazard_aware_astar sqG "B" "C" hz0 false (0+1+1+1+1+1) =
      some (some (["B", "C"], 10)) := by
  rw [hazard_aware_astar,
    if_neg (astar_guard_ne sqG_node_isSome.2.1 sqG_node_isSome.2.2.1)]
  norm_num +decide [astarLoop, pickMin, pickMinAux, relaxAll, relaxStep,
    relaxUpd, alook, updA, oLt, edge_cost, HazardMap.get_edge_penalty,
    HazardMap.get_node_penalty, HazardMap.has_fire,
    sqG_nb_A, sqG_nb_B, sqG_nb_C, sqG_nb_D,
    sqG_heuristic, HazardMap.is_closed, HazardMap.init, hz0,
    reconstruct_path, reconstructGo, penSum, List.erase]

set_option maxHeartbeats 2000000 in
theorem eval_astar_BC_t :
    hazard_aware_astar sqG "B" "C" hz0 true (0+1+1+1+1+1) =
      some (some (["B", "C"], 10)) := by
  rw [hazard_aware_astar,
    if_neg (astar_guard_ne sqG_node_isSome.2.1 sqG_node_isSome.2.2.1)]
  norm_num +decide [astarLoop, pickMin, pickMinAux, relaxAll, relaxStep,
    relaxUpd, alook, updA, oLt, edge_cost, HazardMap.get_edge_penalty,
    HazardMap.get_node_penalty, HazardMap.has_fire,
    sqG_nb_A, sqG_nb_B, sqG_nb_C, sqG_nb_D,
    sqG_heuristic, HazardMap.is_closed, HazardMap.init, hz0,
    reconstruct_path, reconstructGo, penSum, List.erase]

set_option maxHeartbeats 2000000 in
theorem eval_astar_DC_t :
    hazard_aware_astar sqG "D" "C" hz0 true (0+1+1+1+1+1) =
      some (some (["D", "C"], 30)) := by
  rw [hazard_aware_astar,
    if_neg (astar_guard_ne sqG_node_isSome.2.2.2 sqG_node_isSome.2.2.1)]
  norm_num +decide [astarLoop, pickMin, pickMinAux, relaxAll, relaxStep,
    relaxUpd, alook, updA, oLt, edge_cost, HazardMap.get_edge_penalty,
    HazardMap.get_node_penalty, HazardMap.has_fire,
    sqG_nb_A, sqG_nb_B, sqG_nb_C, sqG_nb_D,
    sqG_heuristic, HazardMap.is_closed, HazardMap.init, hz0,
    reconstruct_path, reconstructGo, penSum, List.erase]

/-- The square world with the corridor `A–B` closed. -/
def hzAB : HazardMap := hz0.add_closure "A" "B"

set_option maxHeartbeats 2000000 in
theorem eval_astar_AC_closed :
    hazard_aware_astar sqG "A" "C" hzAB false (0+1+1+1+1+1) =
      some (some (["A", "D", "C"], 40)) := by
  rw [hazard_aware_astar,
    if_neg (astar_guard_ne sqG_node_isSome.1 sqG_node_isSome.2.2.1)]
  norm_num +decide [astarLoop, pickMin, pickMinAux, relaxAll, relaxStep,
    relaxUpd, alook, updA, oLt, edge_cost, HazardMap.get_edge_penalty,
    HazardMap.get_node_penalty, HazardMap.has_fire,
    sqG_nb_A, sqG_nb_B, sqG_nb_C, sqG_nb_D,
    sqG_heuristic, HazardMap.is_closed, HazardMap.init, hz0, hzAB,
    HazardMap.add_closure,
    reconstruct_path, reconstructGo, penSum, List.erase]

set_option maxHeartbeats 1000000 in
theorem eval_mdr :
    multi_destination_route sqG "A" ["B", "C"] hz0 (0+1+1+1+1+1) =
      some (some (["A", "B", "C"], 20)) := by
  have hded : (["B", "C"] : List String).dedup = ["B", "C"] := by decide
  norm_num +decide [multi_destination_route, hded, mdrLoop, mdrPick,
    eval_astar_AB, eval_astar_AC, eval_astar_BC, List.erase]

/-- Two security responders: `S1` one corridor from the incident room `C`,
`S2` across the long side. -/
def trkW : StaffTracker :=
  ⟨[("S1", ⟨"S1", StaffRole.security, "B", StaffStatus.available, none⟩),
    ("S2", ⟨"S2", StaffRole.security, "D", StaffStatus.available, none⟩)]⟩

/-- A critical incident at `C` requiring security. -/
def incC : EmergencyIncident :=
  ⟨"I1", "C", "fight", "critical", StaffRole.security, "t0"⟩

/-- The same incident with priority low. -/
def incL : EmergencyIncident :=
  ⟨"I1", "C", "fight", "low", StaffRole.security, "t0"⟩

/-- The winning assignment of `S1` for the critical incident. -/
def asgS1C : ResponderAssignment :=
  ⟨"S1", StaffRole.security, "B", "C", ["B", "C"], 10, 5, "critical"⟩

/-- The assignment of `S2` for the critical incident. -/
def asgS2C : ResponderAssignment :=
  ⟨"S2", StaffRole.security, "D", "C", ["D", "C"], 30, 15, "critical"⟩

theorem eval_avail_W :
    trkW.get_available_by_role StaffRole.security =
      [⟨"S1", StaffRole.security, "B", StaffStatus.available, none⟩,
       ⟨"S2", StaffRole.security, "D", StaffStatus.available, none⟩] := by
  norm_num +decide [StaffTracker.get_available_by_role, trkW, StaffMember.is_available]

theorem pw_critical : priorityWeight "critical" = 0.5 := by
  norm_num +decide [priorityWeight]

theorem pw_low : priorityWeight "low" = 1.5 := by
  norm_num +decide [priorityWeight]

theorem eta_sec_10 : calculate_eta_with_role 10 "security" = 5 := by
  norm_num +decide [calculate_eta_with_role, calculate_eta, pyInt]

theorem eta_sec_30 : calculate_eta_with_role 30 "security" = 15 := by
  norm_num +decide [calculate_eta_with_role, calculate_eta, pyInt]

set_option maxHeartbeats 1000000 in
theorem eval_fnr_C :
    find_nearest_responder sqG incC trkW hz0 (0+1+1+1+1+1) = some (some asgS1C) := by
  rw [find_nearest_responder]
  rw [show incC.required_role = StaffRole.security from rfl, eval_avail_W]
  norm_num +decide [fnrLoop, incC, asgS1C, eval_astar_BC_t, eval_astar_DC_t,
    pw_critical, eta_sec_10, eta_sec_30, oLt, StaffRole.value]

set_option maxHeartbeats 1000000 in
theorem eval_fnr_L :
    find_nearest_responder sqG incL trkW hz0 (0+1+1+1+1+1) =
      some (some { asgS1C with priority := "low" }) := by
  rw [find_nearest_responder]
  rw [show incL.required_role = StaffRole.security from rfl, eval_avail_W]
  norm_num +decide [fnrLoop, incL, asgS1C, eval_astar_BC_t, eval_astar_DC_t,
    pw_low, eta_sec_10, eta_sec_30, oLt, StaffRole.value]

set_option maxHeartbeats 1000000 in
theorem eval_fmr_C :
    find_multiple_responders sqG incC trkW hz0 2 (0+1+1+1+1+1) =
      some [asgS1C, asgS2C] := by
  rw [find_multiple_responders]
  rw [show incC.required_role = StaffRole.security from rfl, eval_avail_W]
  norm_num +decide [fmrBuild, incC, asgS1C, asgS2C, eval_astar_BC_t, eval_astar_DC_t,
    eta_sec_10, eta_sec_30, sortByEta, List.insertionSort,
    List.orderedInsert, etaLe, StaffRole.value]

/-- All base edge weights of the square world are nonnegative. -/
theorem sqG_weights : ∀ u v w, (v, w) ∈ sqG.get_neighbors u → 0 ≤ w := by
  intro u v w h
  simp only [Graph.get_neighbors, sqG, alook] at h
  split_ifs at h <;> simp_all <;> rcases h with ⟨_, rfl⟩ | ⟨_, rfl⟩ <;> norm_num

/-- `C` is reachable from `A` in the square world: the walk `A → B → C`. -/
theorem reach_AC : Reachable sqG hz0 "A" "C" := by
  have hAB : (("B", (10 : ℝ)) ∈ sqG.get_neighbors "A") := by
    rw [sqG_nb_A]; exact List.mem_cons_self _ _
  have hBC : (("C", (10 : ℝ)) ∈ sqG.get_neighbors "B") := by
    rw [sqG_nb_B]; exact List.mem_cons_of_mem _ (List.mem_cons_self _ _)
  have hop : ∀ a b : String, ¬hz0.is_closed a b := by
    intro a b
    simp [hz0, HazardMap.init, HazardMap.is_closed]
  exact ⟨10 + (10 + 0),
    BWalk.cons hAB (hop _ _) (BWalk.cons hBC (hop _ _) (BWalk.refl "C"))⟩

/-- A lone security responder standing at the incident room `C`. -/
def trkC : StaffTracker :=
  ⟨[("SC", ⟨"SC", StaffRole.security, "C", StaffStatus.available, none⟩)]⟩

/-- The degenerate assignment of that responder to the incident at `C`. -/
def asgSelf : ResponderAssignment :=
  ⟨"SC", StaffRole.security, "C", "C", ["C"], 0, 0, "critical"⟩

theorem eval_avail_C :
    trkC.get_available_by_role StaffRole.security =
      [⟨"SC", StaffRole.security, "C", StaffStatus.available, none⟩] := by
  norm_num +decide [StaffTracker.get_available_by_role, trkC, StaffMember.is_available]

theorem astar_CC_t :
    hazard_aware_astar sqG "C" "C" hz0 true (0+1+1+1+1+1) = some (some (["C"], 0)) :=
  astar_self sqG hz0 true "C" (0+1+1+1+1+1) sqG_node_isSome.2.2.1 (by norm_num)

theorem eta_sec_0 : calculate_eta_with_role 0 "security" = 0 :=
  calculate_eta_with_role_zero "security"

set_option maxHeartbeats 1000000 in
theorem eval_fnr_self :
    find_nearest_responder sqG incC trkC hz0 (0+1+1+1+1+1) = some (some asgSelf) := by
  rw [find_nearest_responder]
  rw [show incC.required_role = StaffRole.security from rfl, eval_avail_C]
  norm_num +decide [fnrLoop, incC, asgSelf, astar_CC_t, pw_critical, eta_sec_0,
    oLt, StaffRole.value]

/-- Counterexample graph for the heuristic's admissibility: `M` lies ten
levels above `G`, one unit-weight corridor apart. -/
def cexG : Graph :=
  ⟨[("M", ⟨"M", 0, 0, 10, "normal"⟩), ("G", ⟨"G", 0, 0, 0, "normal"⟩)],
   [("M", [("G", 1)])]⟩

/-- Claim C2 counterexample: in `cexG` (nonnegative weights, zero hazards)
the goal `G` is one edge of weight `1` away from `M`, yet the heuristic
evaluates to `Real.sqrt 0 + 10 * 5 = 50 > 1`: the level term overestimates
the true remaining cost, so the heuristic is not admissible for every
graph. -/
theorem claim_C2_cex :
    (∀ u v w, (v, w) ∈ cexG.get_neighbors u → 0 ≤ w) ∧
    hz0.node_hazards = [] ∧ hz0.edge_hazards = [] ∧
    BWalk cexG hz0 "M" "G" 1 ∧
    cexG.heuristic "M" "G" = 50 ∧ ¬cexG.heuristic "M" "G" ≤ 1 := by
  have hw : ∀ u v w, (v, w) ∈ cexG.get_neighbors u → 0 ≤ w := by
    intro u v w h
    simp only [Graph.get_neighbors, cexG, alook] at h
    split_ifs at h <;> simp_all
  have hmem : (("G", (1 : ℝ)) ∈ cexG.get_neighbors "M") := by
    norm_num +decide [cexG, Graph.get_neighbors, alook]
  have hop : ¬hz0.is_closed "M" "G" := by
    simp [hz0, HazardMap.init, HazardMap.is_closed]
  have hwalk : BWalk cexG hz0 "M" "G" 1 :=
    (BWalk.cons hmem hop (BWalk.refl "G")).cost_eqB (by norm_num)
  have hm : cexG.get_node "M" = some ⟨"M", 0, 0, 10, "normal"⟩ := by
    norm_num +decide [cexG, Graph.get_node, alook]
  have hg : cexG.get_node "G" = some ⟨"G", 0, 0, 0, "normal"⟩ := by
    norm_num +decide [cexG, Graph.get_node, alook]
  have hh : cexG.heuristic "M" "G" = 50 := by
    unfold Graph.heuristic
    rw [hm, hg]
    norm_num [Real.sqrt_zero]
  exact ⟨hw, rfl, rfl, hwalk, hh, by rw [hh]; norm_num⟩

/-- Witness for C2 at the square world: the run `A → C` returns cost `20`,
which is certified to be the true shortest-path cost. -/
theorem claim_C2_witness :
    ∃ p c, (some (["A", "B", "C"], (20 : ℝ)) : Option (List String × ℝ)) = some (p, c) ∧
      IsShortestCost sqG hz0 "A" "C" c ∧ CWalkL sqG hz0 false p c ∧
      p.head? = some "A" ∧ p.getLast? = some "C" :=
  claim_C2 sqG hz0 false "A" "C" (0+1+1+1+1+1) rfl rfl sqG_weights
    (fun u c h => by rw [sqG_heuristic]; exact BWalk_nonneg sqG_weights h)
    sqG_node_isSome.1 sqG_node_isSome.2.2.1 reach_AC
    (some (["A", "B", "C"], 20)) eval_astar_AC

/-- Claim C4 counterexample: two candidates at distances `10` and `30` from
the incident, and the `critical` run and the `low` run of `assignNearest`
pick the *same* winner `S1` (only the copied priority string differs) — the
claimed priority-dependent flip does not occur. -/
theorem claim_C4_cex :
    asgS1C.distance ≠ asgS2C.distance ∧
    find_nearest_responder sqG incC trkW hz0 (0+1+1+1+1+1) = some (some asgS1C) ∧
    find_nearest_responder sqG incL trkW hz0 (0+1+1+1+1+1) =
      some (some { asgS1C with priority := "low" }) ∧
    stripA asgS1C = stripA { asgS1C with priority := "low" } :=
  ⟨by norm_num [asgS1C, asgS2C], eval_fnr_C, eval_fnr_L, rfl⟩

/-- Witness for C4: the `low` run at the square world returns the same
stripped assignment as the `critical` run. -/
theorem claim_C4_witness :
    ∃ res2, find_nearest_responder sqG incL trkW hz0 (0+1+1+1+1+1) = some res2 ∧
      Option.map stripA (some asgS1C) = Option.map stripA res2 :=
  claim_C4 sqG hz0 trkW (0+1+1+1+1+1) incC incL rfl rfl (some asgS1C) eval_fnr_C

/-- Witness for C5: the multi-destination run `A → [B, C]` visits both
destinations, starts at `A`, walks usable edges, and certifies both
destinations reachable. -/
theorem claim_C5_witness :
    (∀ d ∈ (["B", "C"] : List String), d ∈ (["A", "B", "C"] : List String)) ∧
    (["A", "B", "C"] : List String).head? = some "A" ∧
    List.Chain' (openStep sqG hz0) ["A", "B", "C"] ∧
    ∀ d ∈ (["B", "C"] : List String), Reachable sqG hz0 "A" d :=
  (claim_C5 sqG hz0 "A" ["B", "C"] (0+1+1+1+1+1)).1 ["A", "B", "C"] 20 eval_mdr

/-- Witness for C8: the two-responder run at the square world returns at
most two assignments, sorted by raw ETA, each from the available security
staff with a completed crowd-avoiding route. -/
theorem claim_C8_witness :
    ([asgS1C, asgS2C] : List ResponderAssignment).length ≤ 2 ∧
    List.Sorted etaLe [asgS1C, asgS2C] ∧
    (∀ a ∈ ([asgS1C, asgS2C] : List ResponderAssignment),
      ∃ s ∈ trkW.get_available_by_role incC.required_role,
        a.staff_id = s.id ∧ a.staff_role = s.role ∧
        a.current_position = s.current_position ∧
        a.eta_seconds = calculate_eta_with_role a.distance s.role.value ∧
        hazard_aware_astar sqG s.current_position incC.location hz0 true (0+1+1+1+1+1) =
          some (some (a.path, a.distance)) ∧ a.path ≠ []) :=
  (claim_C8 sqG hz0 trkW 2 (0+1+1+1+1+1) incC).1 [asgS1C, asgS2C] eval_fmr_C

/-- Witness for C9: the completed run `A → C` of the square world is not the
no-path signal (and indeed `C` is reachable), and the returned path starts
at `A`, ends at `C`, along usable edges. -/
theorem claim_C9_witness :
    ((some (["A", "B", "C"], (20 : ℝ)) : Option (List String × ℝ)) = none ↔
      ¬Reachable sqG hz0 "A" "C") ∧
    ((["A", "B", "C"] : List String).head? = some "A" ∧
      (["A", "B", "C"] : List String).getLast? = some "C" ∧
      List.Chain' (openStep sqG hz0) ["A", "B", "C"]) :=
  ⟨(claim_C9 sqG hz0 false "A" "C" (0+1+1+1+1+1) sqG_node_isSome.1 sqG_node_isSome.2.2.1
      (some (["A", "B", "C"], 20)) eval_astar_AC).1,
   (claim_C9 sqG hz0 false "A" "C" (0+1+1+1+1+1) sqG_node_isSome.1 sqG_node_isSome.2.2.1
      (some (["A", "B", "C"], 20)) eval_astar_AC).2 ["A", "B", "C"] 20 rfl⟩

/-- Witness for C10: routing `C` to itself returns `([C], 0)`, and the
responder already standing at `C` is assigned with ETA `0`. -/
theorem claim_C10_witness :
    hazard_aware_astar sqG "C" "C" hz0 false (0+1+1+1+1+1) = some (some (["C"], 0)) ∧
    ∃ a, (some asgSelf : Option ResponderAssignment) = some a ∧
      (CostNonneg sqG hz0 true → a.eta_seconds = 0) :=
  ⟨(claim_C10 sqG hz0 false "C" (0+1+1+1+1+1) sqG_node_isSome.2.2.1 (by norm_num)).1,
   (claim_C10 sqG hz0 true "C" (0+1+1+1+1+1) sqG_node_isSome.2.2.1 (by norm_num)).2
     incC trkC ⟨"SC", StaffRole.security, "C", StaffStatus.available, none⟩
     (some asgSelf)
     (by rw [show incC.required_role = StaffRole.security from rfl, eval_avail_C]
         exact List.mem_cons_self _ _)
     rfl rfl eval_fnr_self⟩

end
